import Mathlib

/-!
Verification of the `primes` Go package: a compact prime sieve over the
numbers coprime to 6, an ascending prime iterator, a smallest-factor query
by trial division against the stored primes, and a factorizer that
precomputes the largest prime factor of every candidate number up to a
bound via a depth-bounded recursive multiplicative walk.

The Go sources are embedded shallowly:
* `uint64` values are modelled as `Nat`; the places where Go's wrap-around
  or shift semantics actually differ from `Nat` arithmetic (the `n - 1`
  underflow in `IsPrime`, shifts by 64 or more) are modelled explicitly;
  `maxuint` is the literal `2^64 - 1` and all overflow guards compare
  against it exactly as the source does.
* Go slices of `uint64` become `List Nat` whose entries stay below `2^64`.
* Go `for` loops become structurally recursive functions over an explicit
  fuel argument, so that every definition is executable by the kernel.
  Each fuel is chosen generously; the development proves that the loops
  terminate within the given fuel on every input the program reaches.
* Operations that can panic in Go (slice index out of range, integer
  division by zero) return `Option`, with `none` modelling the panic.
-/

set_option maxRecDepth 10000

namespace Primes

/-! ## Index mapping (`numberToIndex` / `indexToNumber`, primeset.go) -/

/-- `numberToIndex` returns for a given n the index of the bit in the bit
set which marks primality of n.  Source: `primeset.go`. -/
def numberToIndex (n : Nat) : Nat :=
  if n < 5 then 0
  else
    let x2 := n >>> 1
    let x3 := n / 3
    let x23 := n / 6
    n - (x2 + x3 - x23) - 1

/-- `indexToNumber` determines which prime candidate is associated with a
given index.  Source: `primeset.go`. -/
def indexToNumber (i : Nat) : Nat :=
  if i = 0 then 3
  else
    let n := 5 + 6 * ((i - 1) >>> 1)
    if i &&& 1 = 0 then n + 2 else n

theorem numberToIndex_eq (n : Nat) :
    numberToIndex n = if n < 5 then 0 else n - (n / 2 + n / 3 - n / 6) - 1 := by
  simp [numberToIndex, Nat.shiftRight_eq_div_pow]

theorem indexToNumber_eq (i : Nat) :
    indexToNumber i =
      if i = 0 then 3
      else if i % 2 = 0 then 5 + 6 * ((i - 1) / 2) + 2 else 5 + 6 * ((i - 1) / 2) := by
  have h1 : i &&& 1 = i % 2 := Nat.and_one_is_mod i
  simp only [indexToNumber, Nat.shiftRight_eq_div_pow, h1, pow_one]

/-- A candidate number: at least 5 and coprime to 6 (the only numbers,
besides 3, represented by bits of the sieve). -/
def Candidate (n : Nat) : Prop := 5 ≤ n ∧ (n % 6 = 1 ∨ n % 6 = 5)

instance (n : Nat) : Decidable (Candidate n) := by
  unfold Candidate; infer_instance

theorem candidate_iff_coprime (n : Nat) (h5 : 5 ≤ n) :
    Candidate n ↔ Nat.Coprime n 6 := by
  have h6 : (6 : Nat) = 2 * 3 := rfl
  rw [Candidate, Nat.coprime_comm, h6, Nat.coprime_mul_iff_left,
    Nat.Prime.coprime_iff_not_dvd Nat.prime_two,
    Nat.Prime.coprime_iff_not_dvd Nat.prime_three]
  omega

theorem indexToNumber_numberToIndex {n : Nat} (h : Candidate n) :
    indexToNumber (numberToIndex n) = n := by
  obtain ⟨h5, hr⟩ := h
  rw [numberToIndex_eq, if_neg (by omega : ¬n < 5), indexToNumber_eq]
  split
  · omega
  · split <;> omega

theorem numberToIndex_three : numberToIndex 3 = 0 := by decide

theorem numberToIndex_indexToNumber (i : Nat) :
    numberToIndex (indexToNumber i) = i := by
  rw [indexToNumber_eq, numberToIndex_eq]
  by_cases h0 : i = 0
  · simp [h0]
  · rw [if_neg h0]
    by_cases h2 : i % 2 = 0
    · rw [if_pos h2]
      split <;> omega
    · rw [if_neg h2]
      split <;> omega

theorem numberToIndex_mono {n m : Nat} (h : n ≤ m) :
    numberToIndex n ≤ numberToIndex m := by
  rw [numberToIndex_eq, numberToIndex_eq]
  split <;> (try split) <;> omega

theorem indexToNumber_strictMono {i j : Nat} (h : i < j) :
    indexToNumber i < indexToNumber j := by
  rw [indexToNumber_eq, indexToNumber_eq]
  split <;> split <;> (try split) <;> (try split) <;> omega

theorem indexToNumber_candidate (i : Nat) (hi : 0 < i) :
    Candidate (indexToNumber i) := by
  rw [indexToNumber_eq]
  unfold Candidate
  split
  · omega
  · split <;> omega

theorem indexToNumber_ge_three (i : Nat) : 3 ≤ indexToNumber i := by
  rw [indexToNumber_eq]
  split
  · omega
  · split <;> omega

theorem indexToNumber_mono {i j : Nat} (h : i ≤ j) :
    indexToNumber i ≤ indexToNumber j := by
  rcases Nat.eq_or_lt_of_le h with rfl | hlt
  · exact Nat.le_refl _
  · exact Nat.le_of_lt (indexToNumber_strictMono hlt)

/-! ## Bit-vector primitives (bits.go)

A Go `[]uint64` becomes a `List Nat` whose entries stay below `2 ^ 64`
(`Words64` below); `getBit`/`setBit`/`clearBit` only inspect bit positions
0..63 of a word, so their characterizations hold for arbitrary entries. -/

/-- All entries of the word list are genuine 64-bit values. -/
def Words64 (bits : List Nat) : Prop := ∀ w ∈ bits, w < 2 ^ 64

/-- The all-ones word `0xffffffffffffffff` used by `setAllBits`. -/
def allbits : Nat := 0xffffffffffffffff

/-- `maxuint` is the maximum value of an uint64 (factorizer.go). -/
def maxuint : Nat := 0xffffffffffffffff

/-- `wordMask` splits a bit index into an uint64 array index and a bit
mask. -/
def wordMask (i : Nat) : Nat × Nat := (i >>> 6, 1 <<< (i &&& 63))

/-- `setBit` sets bit i in the given uint64 array.  Go indexes the slice
directly; all callers stay in range (out of range, `List.set` is a no-op
where Go would panic -- the sieve never does). -/
def setBit (bits : List Nat) (i : Nat) : List Nat :=
  let wm := wordMask i
  bits.set wm.1 (bits.getD wm.1 0 ||| wm.2)

/-- `clearBit` clears bit i in the given uint64 array (Go `&^` is and-not;
for a single-bit mask below `2 ^ 64` the complement is `allbits ^^^ mask`). -/
def clearBit (bits : List Nat) (i : Nat) : List Nat :=
  let wm := wordMask i
  bits.set wm.1 (bits.getD wm.1 0 &&& (allbits ^^^ wm.2))

/-- `getBit` returns true iff bit i is set in the given uint64 array.
Total variant used by the in-range callers (sieve, iterator builder). -/
def getBit (bits : List Nat) (i : Nat) : Bool :=
  let wm := wordMask i
  bits.getD wm.1 0 &&& wm.2 != 0

/-- `getBit` as `IsPrime` executes it: the unguarded slice access panics
when the word index is out of range, modelled by `none`. -/
def getBitChecked (bits : List Nat) (i : Nat) : Option Bool :=
  let wm := wordMask i
  (bits.get? wm.1).map (fun w => w &&& wm.2 != 0)

/-- `setAllBits` sets all bits in the given uint64 array. -/
def setAllBits (bits : List Nat) : List Nat := bits.map (fun _ => allbits)

/-- `numberOfLeadingZeroes` returns the number of leading zero bits
(0..64) in the given uint64.  Go mutates `n` and `x` in six steps; each
step is rendered as a pair of `let`s (the updated count, the updated
word). -/
def numberOfLeadingZeroes (i : Nat) : Nat :=
  if i = 0 then 64
  else
    let n := 0
    let x := i
    let n1 := if x &&& 0xffffffff00000000 = 0 then n + 32 else n
    let x1 := if x &&& 0xffffffff00000000 = 0 then x <<< 32 else x
    let n2 := if x1 &&& 0xffff000000000000 = 0 then n1 + 16 else n1
    let x2 := if x1 &&& 0xffff000000000000 = 0 then x1 <<< 16 else x1
    let n3 := if x2 &&& 0xff00000000000000 = 0 then n2 + 8 else n2
    let x3 := if x2 &&& 0xff00000000000000 = 0 then x2 <<< 8 else x2
    let n4 := if x3 &&& 0xf000000000000000 = 0 then n3 + 4 else n3
    let x4 := if x3 &&& 0xf000000000000000 = 0 then x3 <<< 4 else x3
    let n5 := if x4 &&& 0xc000000000000000 = 0 then n4 + 2 else n4
    let x5 := if x4 &&& 0xc000000000000000 = 0 then x4 <<< 2 else x4
    let n6 := if x5 &&& 0x8000000000000000 = 0 then n5 + 1 else n5
    n6

/-- `numberOfTrailingZeroes` returns the number of trailing zero bits
(0..64) in the given uint64. -/
def numberOfTrailingZeroes (i : Nat) : Nat :=
  if i = 0 then 64
  else
    let n := 0
    let x := i
    let n1 := if x &&& 0xffffffff = 0 then n + 32 else n
    let x1 := if x &&& 0xffffffff = 0 then x >>> 32 else x
    let n2 := if x1 &&& 0xffff = 0 then n1 + 16 else n1
    let x2 := if x1 &&& 0xffff = 0 then x1 >>> 16 else x1
    let n3 := if x2 &&& 0xff = 0 then n2 + 8 else n2
    let x3 := if x2 &&& 0xff = 0 then x2 >>> 8 else x2
    let n4 := if x3 &&& 0xf = 0 then n3 + 4 else n3
    let x4 := if x3 &&& 0xf = 0 then x3 >>> 4 else x3
    let n5 := if x4 &&& 0x3 = 0 then n4 + 2 else n4
    let x5 := if x4 &&& 0x3 = 0 then x4 >>> 2 else x4
    let n6 := if x5 &&& 0x1 = 0 then n5 + 1 else n5
    n6

/-- The word-scanning loop of `nextSetBit` (`word++; for word < len ...`),
recursing on an explicit fuel; `nextSetBit` passes `bits.length`, which
always suffices. -/
def nextSetBitLoop (bits : List Nat) : Nat → Nat → Option Nat
  | 0, _ => none
  | fuel + 1, word =>
    if word < bits.length then
      if bits.getD word 0 ≠ 0 then
        some ((word <<< 6) + numberOfTrailingZeroes (bits.getD word 0))
      else nextSetBitLoop bits fuel (word + 1)
    else none

/-- `nextSetBit` returns the index of the next set bit in the given uint64
array, starting from i; `none` if there is no set bit at or after i. -/
def nextSetBit (bits : List Nat) (i : Nat) : Option Nat :=
  let word := i >>> 6
  if word ≥ bits.length then none
  else
    let w := bits.getD word 0 >>> (i &&& 63)
    if w ≠ 0 then some (i + numberOfTrailingZeroes w)
    else nextSetBitLoop bits bits.length (word + 1)

/-- The descending word scan of `highestSetBit` (`for word := len-1; word >= 0; word--`):
the argument is one past the word currently examined. -/
def highestSetBitLoop (bits : List Nat) : Nat → Option Nat
  | 0 => none
  | w1 + 1 =>
    if bits.getD w1 0 ≠ 0 then
      some ((w1 <<< 6) + 63 - numberOfLeadingZeroes (bits.getD w1 0))
    else highestSetBitLoop bits w1

/-- `highestSetBit` returns the index of the highest set bit, `none` if no
bit is set. -/
def highestSetBit (bits : List Nat) : Option Nat :=
  highestSetBitLoop bits bits.length

/-! ### Specifications of the bit primitives -/

theorem and_shiftLeft_one_ne (w k : Nat) :
    (w &&& (1 <<< k) != 0) = w.testBit k := by
  rw [Nat.shiftLeft_eq, one_mul, Nat.and_two_pow]
  cases h : w.testBit k <;> simp [h]

theorem and_sixtythree (x : Nat) : x &&& 63 = x % 64 := by
  have h : (63 : Nat) = 2 ^ 6 - 1 := by norm_num
  rw [h, Nat.and_pow_two_sub_one_eq_mod]

theorem shiftRight_six (x : Nat) : x >>> 6 = x / 64 := by
  rw [Nat.shiftRight_eq_div_pow]

theorem getBit_eq_testBit (bits : List Nat) (i : Nat) :
    getBit bits i = (bits.getD (i / 64) 0).testBit (i % 64) := by
  simp only [getBit, wordMask, and_shiftLeft_one_ne, and_sixtythree, shiftRight_six]

theorem testBit_div_pow (x k i : Nat) : (x / 2 ^ k).testBit i = x.testBit (k + i) := by
  rw [← Nat.shiftRight_eq_div_pow, Nat.testBit_shiftRight]

/-- A number all of whose bits at or above position k are clear is below `2 ^ k`. -/
theorem lt_two_pow_of_high_bits (x k : Nat) (h : ∀ j, k ≤ j → x.testBit j = false) :
    x < 2 ^ k := by
  by_contra hx
  have hq : x / 2 ^ k ≠ 0 := by
    rw [Ne, Nat.div_eq_zero_iff (Nat.pos_pow_of_pos k (by norm_num))]
    omega
  obtain ⟨i, hi, -⟩ := Nat.exists_most_significant_bit hq
  rw [testBit_div_pow] at hi
  rw [h (k + i) (Nat.le_add_right _ _)] at hi
  exact Bool.false_ne_true hi

/-- Characterization of the high-bit masks used by `numberOfLeadingZeroes`:
for x < 2^(b+k), `x &&& (2^(b+k) - 2^b) = 0` iff `x < 2^b`. -/
theorem high_mask_eq_zero_iff (x b k : Nat) (hx : x < 2 ^ (b + k)) :
    (x &&& (2 ^ (b + k) - 2 ^ b) = 0) ↔ x < 2 ^ b := by
  have hM : 2 ^ (b + k) - 2 ^ b = (2 ^ k - 1) <<< b := by
    rw [Nat.shiftLeft_eq, Nat.sub_mul, one_mul, ← pow_add, Nat.add_comm k b]
  constructor
  · intro h0
    apply lt_two_pow_of_high_bits
    intro j hj
    rcases Nat.lt_or_ge j (b + k) with hjk | hjk
    · have hbit : (x &&& (2 ^ (b + k) - 2 ^ b)).testBit j = false := by
        rw [h0]; exact Nat.zero_testBit j
      rw [Nat.testBit_land, hM, Nat.testBit_shiftLeft, Nat.testBit_two_pow_sub_one] at hbit
      simpa [hj, Nat.lt_sub_iff_add_lt, show j - b < k by omega] using hbit
    · exact Nat.testBit_eq_false_of_lt (Nat.lt_of_lt_of_le hx (Nat.pow_le_pow_right (by norm_num) hjk))
  · intro hb
    apply Nat.eq_of_testBit_eq
    intro j
    rw [Nat.testBit_land, hM, Nat.testBit_shiftLeft, Nat.testBit_two_pow_sub_one, Nat.zero_testBit]
    rcases Nat.lt_or_ge j b with hjb | hjb
    · simp [Nat.not_le_of_lt hjb]
    · rw [Nat.testBit_eq_false_of_lt (Nat.lt_of_lt_of_le hb (Nat.pow_le_pow_right (by norm_num) hjb))]
      simp

/-- One step of the trailing-zero cascade: if the low `s` bits of `x` are
zero, count them and shift them out. -/
theorem ntz_step (w n x s mask t : Nat) (hmask : mask = 2 ^ s - 1) (ht : t = 2 * s)
    (hp1 : x = w / 2 ^ n) (hp2 : w % 2 ^ n = 0) (hp3 : x % 2 ^ t ≠ 0) :
    (if x &&& mask = 0 then x >>> s else x)
        = w / 2 ^ (if x &&& mask = 0 then n + s else n)
      ∧ w % 2 ^ (if x &&& mask = 0 then n + s else n) = 0
      ∧ (if x &&& mask = 0 then x >>> s else x) % 2 ^ s ≠ 0
      ∧ (if x &&& mask = 0 then n + s else n) ≤ n + s := by
  subst ht
  rw [hmask, Nat.and_pow_two_sub_one_eq_mod]
  by_cases hc : x % 2 ^ s = 0
  · rw [if_pos hc, if_pos hc]
    have hd2 : (2 : Nat) ^ s ∣ x := Nat.dvd_of_mod_eq_zero hc
    refine ⟨?_, ?_, ?_, Nat.le_refl _⟩
    · simp only [Nat.shiftRight_eq_div_pow, hp1, Nat.div_div_eq_div_mul, ← pow_add]
    · have hd1 : (2 : Nat) ^ n ∣ w := Nat.dvd_of_mod_eq_zero hp2
      have hd2w : (2 : Nat) ^ s ∣ w / 2 ^ n := by rw [← hp1]; exact hd2
      have hdd : (2 : Nat) ^ (n + s) ∣ w := by
        rw [pow_add]
        exact Nat.mul_dvd_of_dvd_div hd1 hd2w
      exact Nat.mod_eq_zero_of_dvd hdd
    · intro hzero
      apply hp3
      simp only [Nat.shiftRight_eq_div_pow] at hzero
      have e2 : (2 : Nat) ^ s ∣ x / 2 ^ s := Nat.dvd_of_mod_eq_zero hzero
      have e3 : (2 : Nat) ^ (2 * s) ∣ x := by
        rw [two_mul, pow_add]
        exact Nat.mul_dvd_of_dvd_div hd2 e2
      exact Nat.mod_eq_zero_of_dvd e3
  · rw [if_neg hc, if_neg hc]
    exact ⟨hp1, hp2, hc, Nat.le_add_right _ _⟩

/-- Full specification of the trailing-zero count on nonzero 64-bit
words: it is the 2-adic valuation, at most 63. -/
theorem ntz_spec (w : Nat) (h0 : w ≠ 0) (hlt : w < 2 ^ 64) :
    numberOfTrailingZeroes w ≤ 63 ∧
    w % 2 ^ numberOfTrailingZeroes w = 0 ∧
    (w / 2 ^ numberOfTrailingZeroes w) % 2 = 1 := by
  simp only [numberOfTrailingZeroes, if_neg h0]
  have H1 := ntz_step w 0 w 32 0xffffffff 64 (by norm_num) (by norm_num)
    (by norm_num) (by simp [Nat.mod_one]) (by rw [Nat.mod_eq_of_lt hlt]; exact h0)
  set n1 := if w &&& 0xffffffff = 0 then 0 + 32 else 0 with hn1def
  set x1 := if w &&& 0xffffffff = 0 then w >>> 32 else w with hx1def
  have H2 := ntz_step w n1 x1 16 0xffff 32 (by norm_num) (by norm_num)
    H1.1 H1.2.1 H1.2.2.1
  set n2 := if x1 &&& 0xffff = 0 then n1 + 16 else n1 with hn2def
  set x2 := if x1 &&& 0xffff = 0 then x1 >>> 16 else x1 with hx2def
  have H3 := ntz_step w n2 x2 8 0xff 16 (by norm_num) (by norm_num)
    H2.1 H2.2.1 H2.2.2.1
  set n3 := if x2 &&& 0xff = 0 then n2 + 8 else n2 with hn3def
  set x3 := if x2 &&& 0xff = 0 then x2 >>> 8 else x2 with hx3def
  have H4 := ntz_step w n3 x3 4 0xf 8 (by norm_num) (by norm_num)
    H3.1 H3.2.1 H3.2.2.1
  set n4 := if x3 &&& 0xf = 0 then n3 + 4 else n3 with hn4def
  set x4 := if x3 &&& 0xf = 0 then x3 >>> 4 else x3 with hx4def
  have H5 := ntz_step w n4 x4 2 0x3 4 (by norm_num) (by norm_num)
    H4.1 H4.2.1 H4.2.2.1
  set n5 := if x4 &&& 0x3 = 0 then n4 + 2 else n4 with hn5def
  set x5 := if x4 &&& 0x3 = 0 then x4 >>> 2 else x4 with hx5def
  have H6 := ntz_step w n5 x5 1 0x1 2 (by norm_num) (by norm_num)
    H5.1 H5.2.1 H5.2.2.1
  set n6 := if x5 &&& 0x1 = 0 then n5 + 1 else n5 with hn6def
  have hval : w / 2 ^ n6 % 2 = 1 := by
    have hne := H6.2.2.1
    rw [H6.1] at hne
    simp only [pow_one] at hne
    omega
  refine ⟨?_, H6.2.1, hval⟩
  have b1 := H1.2.2.2
  have b2 := H2.2.2.2
  have b3 := H3.2.2.2
  have b4 := H4.2.2.2
  have b5 := H5.2.2.2
  have b6 := H6.2.2.2
  omega

/-- One step of the leading-zero cascade: if the high `s` bits of `x` are
zero, count them and shift `x` up. -/
theorem nlz_step (w n x s mask b t : Nat)
    (hmask : mask = 2 ^ 64 - 2 ^ b) (hb : b + s = 64) (htb : t + s = b)
    (hp1 : x = w * 2 ^ n) (hp2 : x < 2 ^ 64) (hp3 : 2 ^ t ≤ x) :
    (if x &&& mask = 0 then x <<< s else x)
        = w * 2 ^ (if x &&& mask = 0 then n + s else n)
      ∧ (if x &&& mask = 0 then x <<< s else x) < 2 ^ 64
      ∧ 2 ^ b ≤ (if x &&& mask = 0 then x <<< s else x)
      ∧ (if x &&& mask = 0 then n + s else n) ≤ n + s := by
  have h64 : (2 : Nat) ^ 64 = 2 ^ (b + s) := by rw [hb]
  have hcond : (x &&& mask = 0) ↔ x < 2 ^ b := by
    rw [hmask, h64]
    exact high_mask_eq_zero_iff x b s (by rw [← h64]; exact hp2)
  by_cases hc : x &&& mask = 0
  · rw [if_pos hc, if_pos hc]
    have hxb : x < 2 ^ b := hcond.mp hc
    rw [Nat.shiftLeft_eq]
    refine ⟨?_, ?_, ?_, Nat.le_refl _⟩
    · rw [hp1, pow_add, Nat.mul_assoc]
    · calc x * 2 ^ s < 2 ^ b * 2 ^ s :=
            (Nat.mul_lt_mul_right (Nat.pos_pow_of_pos _ (by norm_num))).mpr hxb
        _ = 2 ^ 64 := by rw [← pow_add, hb]
    · calc (2 : Nat) ^ b = 2 ^ t * 2 ^ s := by rw [← pow_add, htb]
        _ ≤ x * 2 ^ s := Nat.mul_le_mul_right _ hp3
  · rw [if_neg hc, if_neg hc]
    exact ⟨hp1, hp2, Nat.le_of_not_lt (fun hlt => hc (hcond.mpr hlt)), Nat.le_add_right _ _⟩

/-- Full specification of the leading-zero count on nonzero 64-bit words:
`63 - numberOfLeadingZeroes w` is the position of the highest set bit. -/
theorem nlz_spec (w : Nat) (h0 : w ≠ 0) (hlt : w < 2 ^ 64) :
    numberOfLeadingZeroes w ≤ 63 ∧
    2 ^ (63 - numberOfLeadingZeroes w) ≤ w ∧
    w < 2 ^ (64 - numberOfLeadingZeroes w) := by
  simp only [numberOfLeadingZeroes, if_neg h0]
  have H1 := nlz_step w 0 w 32 0xffffffff00000000 32 0 (by norm_num) (by norm_num)
    (by norm_num) (by norm_num) hlt (by omega)
  set n1 := if w &&& 0xffffffff00000000 = 0 then 0 + 32 else 0 with hn1def
  set x1 := if w &&& 0xffffffff00000000 = 0 then w <<< 32 else w with hx1def
  have H2 := nlz_step w n1 x1 16 0xffff000000000000 48 32 (by norm_num) (by norm_num)
    (by norm_num) H1.1 H1.2.1 H1.2.2.1
  set n2 := if x1 &&& 0xffff000000000000 = 0 then n1 + 16 else n1 with hn2def
  set x2 := if x1 &&& 0xffff000000000000 = 0 then x1 <<< 16 else x1 with hx2def
  have H3 := nlz_step w n2 x2 8 0xff00000000000000 56 48 (by norm_num) (by norm_num)
    (by norm_num) H2.1 H2.2.1 H2.2.2.1
  set n3 := if x2 &&& 0xff00000000000000 = 0 then n2 + 8 else n2 with hn3def
  set x3 := if x2 &&& 0xff00000000000000 = 0 then x2 <<< 8 else x2 with hx3def
  have H4 := nlz_step w n3 x3 4 0xf000000000000000 60 56 (by norm_num) (by norm_num)
    (by norm_num) H3.1 H3.2.1 H3.2.2.1
  set n4 := if x3 &&& 0xf000000000000000 = 0 then n3 + 4 else n3 with hn4def
  set x4 := if x3 &&& 0xf000000000000000 = 0 then x3 <<< 4 else x3 with hx4def
  have H5 := nlz_step w n4 x4 2 0xc000000000000000 62 60 (by norm_num) (by norm_num)
    (by norm_num) H4.1 H4.2.1 H4.2.2.1
  set n5 := if x4 &&& 0xc000000000000000 = 0 then n4 + 2 else n4 with hn5def
  set x5 := if x4 &&& 0xc000000000000000 = 0 then x4 <<< 2 else x4 with hx5def
  have H6 := nlz_step w n5 x5 1 0x8000000000000000 63 62 (by norm_num) (by norm_num)
    (by norm_num) H5.1 H5.2.1 H5.2.2.1
  set n6 := if x5 &&& 0x8000000000000000 = 0 then n5 + 1 else n5 with hn6def
  have hx6v := H6.1
  have hx6lt := H6.2.1
  have hx6ge := H6.2.2.1
  rw [hx6v] at hx6lt hx6ge
  have hw1 : 1 ≤ w := Nat.one_le_iff_ne_zero.mpr h0
  have hn6le : n6 ≤ 63 := by
    by_contra hgt
    have h64le : 64 ≤ n6 := by omega
    have : (2 : Nat) ^ 64 ≤ 2 ^ n6 := Nat.pow_le_pow_right (by norm_num) h64le
    have : (2 : Nat) ^ 64 ≤ w * 2 ^ n6 :=
      Nat.le_trans this (Nat.le_mul_of_pos_left _ hw1)
    omega
  refine ⟨hn6le, ?_, ?_⟩
  · have he : (2 : Nat) ^ (63 - n6) * 2 ^ n6 = 2 ^ 63 := by
      rw [← pow_add]
      congr 1
      omega
    have : (2 : Nat) ^ (63 - n6) * 2 ^ n6 ≤ w * 2 ^ n6 := by rw [he]; exact hx6ge
    exact Nat.le_of_mul_le_mul_right this (Nat.pos_pow_of_pos _ (by norm_num))
  · have he : (2 : Nat) ^ (64 - n6) * 2 ^ n6 = 2 ^ 64 := by
      rw [← pow_add]
      congr 1
      omega
    have hlt2 : w * 2 ^ n6 < 2 ^ (64 - n6) * 2 ^ n6 := by rw [he]; exact hx6lt
    exact Nat.lt_of_mul_lt_mul_right hlt2

theorem indexToNumber_le_iff {n i : Nat} (h : Candidate n) :
    indexToNumber i ≤ n ↔ i ≤ numberToIndex n := by
  constructor
  · intro hle
    by_contra hlt
    have hx := indexToNumber_strictMono (Nat.lt_of_not_le hlt)
    rw [indexToNumber_numberToIndex h] at hx
    omega
  · intro hle
    have hx := indexToNumber_mono hle
    rw [indexToNumber_numberToIndex h] at hx
    exact hx

theorem wordMask_fst (i : Nat) : (wordMask i).1 = i / 64 := by
  simp [wordMask, shiftRight_six]

theorem wordMask_snd (i : Nat) : (wordMask i).2 = 2 ^ (i % 64) := by
  simp [wordMask, Nat.shiftLeft_eq, and_sixtythree]

theorem getD_zero_oob (bits : List Nat) (n : Nat) (h : bits.length ≤ n) :
    bits.getD n 0 = 0 := by
  rw [List.getD_eq_getElem?_getD, List.getElem?_eq_none h, Option.getD_none]

theorem getD_mem_of_lt (bits : List Nat) (n : Nat) (h : n < bits.length) :
    bits.getD n 0 ∈ bits := by
  rw [List.getD_eq_getElem?_getD, List.getElem?_eq_getElem h, Option.getD_some]
  exact List.getElem_mem h

theorem getBit_oob (bits : List Nat) (j : Nat) (h : 64 * bits.length ≤ j) :
    getBit bits j = false := by
  have hw : bits.length ≤ j / 64 := by omega
  rw [getBit_eq_testBit, getD_zero_oob bits _ hw, Nat.zero_testBit]

theorem testBit_allbits (t : Nat) : allbits.testBit t = decide (t < 64) := by
  have h : allbits = 2 ^ 64 - 1 := by norm_num [allbits]
  rw [h, Nat.testBit_two_pow_sub_one]

theorem length_setAllBits (bits : List Nat) : (setAllBits bits).length = bits.length := by
  simp [setAllBits]

theorem words64_setAllBits (bits : List Nat) : Words64 (setAllBits bits) := by
  intro w hw
  simp only [setAllBits, List.mem_map] at hw
  obtain ⟨-, -, rfl⟩ := hw
  norm_num [allbits]

theorem getBit_setAllBits (bits : List Nat) (j : Nat) :
    getBit (setAllBits bits) j = decide (j < 64 * bits.length) := by
  rw [getBit_eq_testBit]
  rcases Nat.lt_or_ge (j / 64) bits.length with h | h
  · have hget : (setAllBits bits).getD (j / 64) 0 = allbits := by
      rw [setAllBits, List.getD_eq_getElem?_getD, List.getElem?_map,
        List.getElem?_eq_getElem h]
      rfl
    rw [hget, testBit_allbits]
    have h1 : j % 64 < 64 := Nat.mod_lt _ (by norm_num)
    have h2 : j < 64 * bits.length := by omega
    simp [h1, h2]
  · have hget : (setAllBits bits).getD (j / 64) 0 = 0 := by
      apply getD_zero_oob
      rw [length_setAllBits]
      exact h
    rw [hget, Nat.zero_testBit]
    have h2 : ¬j < 64 * bits.length := by omega
    simp [h2]

theorem length_clearBit (bits : List Nat) (m : Nat) :
    (clearBit bits m).length = bits.length := by
  simp [clearBit, List.length_set]

theorem words64_clearBit {bits : List Nat} (W : Words64 bits) (m : Nat) :
    Words64 (clearBit bits m) := by
  intro w hw
  rcases List.mem_or_eq_of_mem_set hw with hmem | rfl
  · exact W w hmem
  · rcases Nat.lt_or_ge (wordMask m).1 bits.length with h | h
    · exact Nat.lt_of_le_of_lt (Nat.and_le_left) (W _ (getD_mem_of_lt _ _ h))
    · rw [getD_zero_oob _ _ h]
      exact Nat.lt_of_le_of_lt (Nat.and_le_left) (by norm_num)

theorem getBit_clearBit (bits : List Nat) (m j : Nat) :
    getBit (clearBit bits m) j = if j = m then false else getBit bits j := by
  rw [getBit_eq_testBit, getBit_eq_testBit]
  unfold clearBit
  rcases Nat.decEq (j / 64) (m / 64) with hne | heq
  · -- different words: the set leaves word j/64 unchanged
    have hset : (bits.set (wordMask m).1 (bits.getD (wordMask m).1 0 &&& (allbits ^^^ (wordMask m).2))).getD (j / 64) 0
        = bits.getD (j / 64) 0 := by
      simp [List.getD_eq_getElem?_getD, wordMask_fst,
        List.getElem?_set_ne (show m / 64 ≠ j / 64 by omega)]
    rw [hset, if_neg (by omega : ¬j = m)]
  · rcases Nat.lt_or_ge (m / 64) bits.length with hlt | hge
    · have hset : (bits.set (wordMask m).1 (bits.getD (wordMask m).1 0 &&& (allbits ^^^ (wordMask m).2))).getD (j / 64) 0
          = bits.getD (m / 64) 0 &&& (allbits ^^^ 2 ^ (m % 64)) := by
        rw [List.getD_eq_getElem?_getD, wordMask_fst, wordMask_snd, heq,
          List.getElem?_set_self hlt, Option.getD_some]
      have hj64 : j % 64 < 64 := Nat.mod_lt _ (by norm_num)
      by_cases hjm : j = m
      · subst hjm
        rw [if_pos rfl, hset, Nat.testBit_land, Nat.testBit_xor, testBit_allbits,
          Nat.testBit_two_pow]
        simp [hj64]
      · have hmod : ¬m % 64 = j % 64 := by omega
        rw [if_neg hjm, hset, Nat.testBit_land, Nat.testBit_xor, testBit_allbits,
          Nat.testBit_two_pow, heq]
        simp [hj64, hmod]
    · have hset : bits.set (wordMask m).1 (bits.getD (wordMask m).1 0 &&& (allbits ^^^ (wordMask m).2)) = bits := by
        apply List.set_eq_of_length_le
        rw [wordMask_fst]
        exact hge
      rw [hset]
      by_cases hjm : j = m
      · subst hjm
        rw [if_pos rfl, getD_zero_oob _ _ (by omega), Nat.zero_testBit]
      · rw [if_neg hjm]

/-- The trailing-zero count points at the lowest set bit. -/
theorem ntz_testBit (w : Nat) (h0 : w ≠ 0) (hlt : w < 2 ^ 64) :
    numberOfTrailingZeroes w ≤ 63 ∧
    w.testBit (numberOfTrailingZeroes w) = true ∧
    ∀ t, t < numberOfTrailingZeroes w → w.testBit t = false := by
  obtain ⟨h63, hmod, hodd⟩ := ntz_spec w h0 hlt
  refine ⟨h63, ?_, ?_⟩
  · rw [Nat.testBit_to_div_mod]
    simp [hodd]
  · intro t ht
    rw [Nat.testBit_to_div_mod]
    have hdvd : (2 : Nat) ^ (t + 1) ∣ w := by
      refine Nat.dvd_trans (Nat.pow_dvd_pow 2 (by omega)) (Nat.dvd_of_mod_eq_zero hmod)
    obtain ⟨k, rfl⟩ := hdvd
    have hdd : 2 ^ (t + 1) * k / 2 ^ t = 2 * k := by
      rw [pow_succ, Nat.mul_assoc]
      exact Nat.mul_div_cancel_left _ (Nat.pos_pow_of_pos _ (by norm_num))
    rw [hdd]
    simp [Nat.mul_mod_right]

/-- `63 - numberOfLeadingZeroes w` points at the highest set bit. -/
theorem nlz_testBit (w : Nat) (h0 : w ≠ 0) (hlt : w < 2 ^ 64) :
    numberOfLeadingZeroes w ≤ 63 ∧
    w.testBit (63 - numberOfLeadingZeroes w) = true ∧
    ∀ t, 63 - numberOfLeadingZeroes w < t → w.testBit t = false := by
  obtain ⟨h63, hge, hlt2⟩ := nlz_spec w h0 hlt
  refine ⟨h63, ?_, ?_⟩
  · rw [Nat.testBit_to_div_mod]
    have e1 : 1 ≤ w / 2 ^ (63 - numberOfLeadingZeroes w) :=
      (Nat.one_le_div_iff (Nat.pos_pow_of_pos _ (by norm_num))).mpr hge
    have e3 : (2 : Nat) ^ (64 - numberOfLeadingZeroes w)
        = 2 * 2 ^ (63 - numberOfLeadingZeroes w) := by
      rw [← pow_succ']
      congr 1
      omega
    have e2 : w / 2 ^ (63 - numberOfLeadingZeroes w) < 2 := by
      rw [Nat.div_lt_iff_lt_mul (Nat.pos_pow_of_pos _ (by norm_num)), ← e3]
      exact hlt2
    have hdiv1 : w / 2 ^ (63 - numberOfLeadingZeroes w) = 1 := by omega
    rw [hdiv1]
    simp
  · intro t ht
    apply Nat.testBit_eq_false_of_lt
    calc w < 2 ^ (64 - numberOfLeadingZeroes w) := hlt2
      _ ≤ 2 ^ t := Nat.pow_le_pow_right (by norm_num) (by omega)

theorem div64_eq (a b : Nat) (hq : a / 64 = b / 64) : a / 64 = b / 64 := hq

theorem nextSetBitLoop_some {bits : List Nat} (W : Words64 bits) :
    ∀ fuel word j, nextSetBitLoop bits fuel word = some j →
      64 * word ≤ j ∧ j < 64 * bits.length ∧ getBit bits j = true ∧
      ∀ k, 64 * word ≤ k → k < j → getBit bits k = false := by
  intro fuel
  induction fuel with
  | zero => intro word j h; simp [nextSetBitLoop] at h
  | succ fuel ih =>
    intro word j h
    simp only [nextSetBitLoop] at h
    by_cases hw : word < bits.length
    · rw [if_pos hw] at h
      by_cases hv : bits.getD word 0 ≠ 0
      · rw [if_pos hv] at h
        have hvlt : bits.getD word 0 < 2 ^ 64 := W _ (getD_mem_of_lt _ _ hw)
        obtain ⟨hd63, hdbit, hdlow⟩ := ntz_testBit _ hv hvlt
        set d := numberOfTrailingZeroes (bits.getD word 0) with hddef
        have hj : j = 64 * word + d := by
          rw [← Option.some_inj.mp h, Nat.shiftLeft_eq]
          norm_num
          omega
        subst hj
        refine ⟨by omega, by omega, ?_, ?_⟩
        · rw [getBit_eq_testBit]
          have e1 : (64 * word + d) / 64 = word := by omega
          have e2 : (64 * word + d) % 64 = d := by omega
          rw [e1, e2]
          exact hdbit
        · intro k hk1 hk2
          rw [getBit_eq_testBit]
          have e1 : k / 64 = word := by omega
          rw [e1]
          exact hdlow _ (by omega)
      · rw [if_neg hv] at h
        push_neg at hv
        obtain ⟨h1, h2, h3, h4⟩ := ih (word + 1) j h
        refine ⟨by omega, h2, h3, ?_⟩
        intro k hk1 hk2
        rcases Nat.lt_or_ge k (64 * (word + 1)) with hk3 | hk3
        · rw [getBit_eq_testBit]
          have e1 : k / 64 = word := by omega
          rw [e1, hv, Nat.zero_testBit]
        · exact h4 k hk3 hk2
    · rw [if_neg hw] at h
      exact absurd h (by simp)

theorem nextSetBitLoop_none {bits : List Nat} (_W : Words64 bits) :
    ∀ fuel word, bits.length ≤ word + fuel → nextSetBitLoop bits fuel word = none →
      ∀ k, 64 * word ≤ k → getBit bits k = false := by
  intro fuel
  induction fuel with
  | zero =>
    intro word hlen h k hk
    exact getBit_oob _ _ (by omega)
  | succ fuel ih =>
    intro word hlen h k hk
    simp only [nextSetBitLoop] at h
    by_cases hw : word < bits.length
    · rw [if_pos hw] at h
      by_cases hv : bits.getD word 0 ≠ 0
      · rw [if_pos hv] at h
        exact absurd h (by simp)
      · rw [if_neg hv] at h
        push_neg at hv
        rcases Nat.lt_or_ge k (64 * (word + 1)) with hk3 | hk3
        · rw [getBit_eq_testBit]
          have e1 : k / 64 = word := by omega
          rw [e1, hv, Nat.zero_testBit]
        · exact ih (word + 1) (by omega) h k hk3
    · exact getBit_oob _ _ (by omega)

theorem nextSetBit_some {bits : List Nat} (W : Words64 bits) {i j : Nat}
    (h : nextSetBit bits i = some j) :
    i ≤ j ∧ j < 64 * bits.length ∧ getBit bits j = true ∧
      ∀ k, i ≤ k → k < j → getBit bits k = false := by
  simp only [nextSetBit, shiftRight_six, and_sixtythree] at h
  by_cases hw : i / 64 ≥ bits.length
  · rw [if_pos hw] at h
    exact absurd h (by simp)
  · rw [if_neg hw] at h
    push_neg at hw
    have hvlt : bits.getD (i / 64) 0 < 2 ^ 64 := W _ (getD_mem_of_lt _ _ hw)
    by_cases hz : bits.getD (i / 64) 0 >>> (i % 64) ≠ 0
    · rw [if_pos hz] at h
      set w := bits.getD (i / 64) 0 >>> (i % 64) with hwdef
      have hwlt : w < 2 ^ (64 - i % 64) := by
        rw [hwdef, Nat.shiftRight_eq_div_pow]
        rw [Nat.div_lt_iff_lt_mul (Nat.pos_pow_of_pos _ (by norm_num)), ← pow_add]
        have e : 64 - i % 64 + i % 64 = 64 := by omega
        rw [e]
        exact hvlt
      have hwlt64 : w < 2 ^ 64 :=
        Nat.lt_of_lt_of_le hwlt (Nat.pow_le_pow_right (by norm_num) (by omega))
      obtain ⟨hd63, hdbit, hdlow⟩ := ntz_testBit w hz hwlt64
      set d := numberOfTrailingZeroes w with hddef
      have hdr : i % 64 + d < 64 := by
        have h1 : 2 ^ d ≤ w := Nat.testBit_implies_ge hdbit
        have h2 : (2 : Nat) ^ d < 2 ^ (64 - i % 64) := Nat.lt_of_le_of_lt h1 hwlt
        have h3 : d < 64 - i % 64 := by
          by_contra hcon
          exact absurd (Nat.pow_le_pow_right (by norm_num : 1 ≤ 2) (Nat.le_of_not_lt hcon)) (by omega)
        omega
      have hj : j = i + d := (Option.some_inj.mp h).symm
      subst hj
      have hbit : ∀ t, w.testBit t = (bits.getD (i / 64) 0).testBit (i % 64 + t) := by
        intro t
        rw [hwdef, Nat.testBit_shiftRight]
      refine ⟨by omega, by omega, ?_, ?_⟩
      · rw [getBit_eq_testBit]
        have e1 : (i + d) / 64 = i / 64 := by omega
        have e2 : (i + d) % 64 = i % 64 + d := by omega
        rw [e1, e2, ← hbit]
        exact hdbit
      · intro k hk1 hk2
        rw [getBit_eq_testBit]
        have e1 : k / 64 = i / 64 := by omega
        have e2 : k % 64 = i % 64 + (k - i) := by omega
        rw [e1, e2, ← hbit]
        exact hdlow _ (by omega)
    · rw [if_neg hz] at h
      push_neg at hz
      obtain ⟨h1, h2, h3, h4⟩ := nextSetBitLoop_some W bits.length (i / 64 + 1) j h
      have hzero : ∀ t, (bits.getD (i / 64) 0).testBit (i % 64 + t) = false := by
        intro t
        have := congrArg (fun x => Nat.testBit x t) hz
        simpa [Nat.testBit_shiftRight] using this
      refine ⟨by omega, h2, h3, ?_⟩
      intro k hk1 hk2
      rcases Nat.lt_or_ge k (64 * (i / 64 + 1)) with hk3 | hk3
      · rw [getBit_eq_testBit]
        have e1 : k / 64 = i / 64 := by omega
        have e2 : k % 64 = i % 64 + (k - i) := by omega
        rw [e1, e2]
        exact hzero _
      · exact h4 k hk3 hk2

theorem nextSetBit_none {bits : List Nat} (W : Words64 bits) {i : Nat}
    (h : nextSetBit bits i = none) :
    ∀ k, i ≤ k → getBit bits k = false := by
  simp only [nextSetBit, shiftRight_six, and_sixtythree] at h
  by_cases hw : i / 64 ≥ bits.length
  · intro k hk
    exact getBit_oob _ _ (by omega)
  · rw [if_neg hw] at h
    push_neg at hw
    by_cases hz : bits.getD (i / 64) 0 >>> (i % 64) ≠ 0
    · rw [if_pos hz] at h
      exact absurd h (by simp)
    · rw [if_neg hz] at h
      push_neg at hz
      have hzero : ∀ t, (bits.getD (i / 64) 0).testBit (i % 64 + t) = false := by
        intro t
        have := congrArg (fun x => Nat.testBit x t) hz
        simpa [Nat.testBit_shiftRight] using this
      intro k hk
      rcases Nat.lt_or_ge k (64 * (i / 64 + 1)) with hk3 | hk3
      · rw [getBit_eq_testBit]
        have e1 : k / 64 = i / 64 := by omega
        have e2 : k % 64 = i % 64 + (k - i) := by omega
        rw [e1, e2]
        exact hzero _
      · exact nextSetBitLoop_none W bits.length (i / 64 + 1) (by omega) h k hk3

theorem highestSetBitLoop_spec {bits : List Nat} (W : Words64 bits) :
    ∀ w1,
      (∀ j, highestSetBitLoop bits w1 = some j →
        j < 64 * w1 ∧ getBit bits j = true ∧
          ∀ k, j < k → k < 64 * w1 → getBit bits k = false) ∧
      (highestSetBitLoop bits w1 = none → ∀ k, k < 64 * w1 → getBit bits k = false) := by
  intro w1
  induction w1 with
  | zero =>
    constructor
    · intro j h; simp [highestSetBitLoop] at h
    · intro h k hk; omega
  | succ w1 ih =>
    by_cases hv : bits.getD w1 0 ≠ 0
    · have hw1 : w1 < bits.length := by
        by_contra hcon
        exact hv (getD_zero_oob _ _ (Nat.le_of_not_lt hcon))
      have hvlt : bits.getD w1 0 < 2 ^ 64 := W _ (getD_mem_of_lt _ _ hw1)
      obtain ⟨hz63, hzbit, hzhigh⟩ := nlz_testBit _ hv hvlt
      set z := numberOfLeadingZeroes (bits.getD w1 0) with hzdef
      have hsl : w1 <<< 6 = 64 * w1 := by
        rw [Nat.shiftLeft_eq]
        omega
      constructor
      · intro j h
        simp only [highestSetBitLoop, if_pos hv, hsl] at h
        have hj : j = 64 * w1 + (63 - z) := by
          have := Option.some_inj.mp h
          omega
        subst hj
        refine ⟨by omega, ?_, ?_⟩
        · rw [getBit_eq_testBit]
          have e1 : (64 * w1 + (63 - z)) / 64 = w1 := by omega
          have e2 : (64 * w1 + (63 - z)) % 64 = 63 - z := by omega
          rw [e1, e2]
          exact hzbit
        · intro k hk1 hk2
          rw [getBit_eq_testBit]
          have e1 : k / 64 = w1 := by omega
          rw [e1]
          exact hzhigh _ (by omega)
      · intro h
        simp only [highestSetBitLoop, if_pos hv] at h
        exact Option.noConfusion h
    · push_neg at hv
      constructor
      · intro j h
        simp only [highestSetBitLoop, hv] at h
        simp only [if_neg (by simp : ¬(0 : Nat) ≠ 0)] at h
        obtain ⟨h1, h2, h3⟩ := ih.1 j h
        refine ⟨by omega, h2, ?_⟩
        intro k hk1 hk2
        rcases Nat.lt_or_ge k (64 * w1) with hk3 | hk3
        · exact h3 k hk1 hk3
        · rw [getBit_eq_testBit]
          have e1 : k / 64 = w1 := by omega
          rw [e1, hv, Nat.zero_testBit]
      · intro h k hk
        simp only [highestSetBitLoop, hv] at h
        simp only [if_neg (by simp : ¬(0 : Nat) ≠ 0)] at h
        rcases Nat.lt_or_ge k (64 * w1) with hk3 | hk3
        · exact ih.2 h k hk3
        · rw [getBit_eq_testBit]
          have e1 : k / 64 = w1 := by omega
          rw [e1, hv, Nat.zero_testBit]

theorem highestSetBit_some {bits : List Nat} (W : Words64 bits) {h : Nat}
    (heq : highestSetBit bits = some h) :
    h < 64 * bits.length ∧ getBit bits h = true ∧
      ∀ k, h < k → getBit bits k = false := by
  obtain ⟨h1, h2, h3⟩ := (highestSetBitLoop_spec W bits.length).1 h heq
  refine ⟨h1, h2, ?_⟩
  intro k hk
  rcases Nat.lt_or_ge k (64 * bits.length) with hk3 | hk3
  · exact h3 k hk hk3
  · exact getBit_oob _ _ hk3

theorem highestSetBit_none {bits : List Nat} (W : Words64 bits)
    (heq : highestSetBit bits = none) :
    ∀ k, getBit bits k = false := by
  intro k
  rcases Nat.lt_or_ge k (64 * bits.length) with hk3 | hk3
  · exact (highestSetBitLoop_spec W bits.length).2 heq k hk3
  · exact getBit_oob _ _ hk3

/-! ## Prime set (sieve; primeset.go) -/

/-- The inner loop of `calculatePrimeBitSet` (`n := p*5; d := p*2;
for n <= limit { if n%3 != 0 { clearBit(...) }; n += d }`).  Fueled; the
caller passes `limit + 2` which always suffices because `d = 2p ≥ 6`. -/
def clearMultiples : Nat → List Nat → Nat → Nat → Nat → List Nat
  | 0, bits, _, _, _ => bits
  | fuel + 1, bits, limit, n, d =>
    if n ≤ limit then
      clearMultiples fuel
        (if n % 3 ≠ 0 then clearBit bits (numberToIndex n) else bits) limit (n + d) d
    else bits

/-- The outer loop of `calculatePrimeBitSet`
(`for i, found := uint(0), true; found; i, found = nextSetBit(bits, i+1)`).
Fueled; the caller passes `64*len + 66` which always suffices because the
scan position strictly increases and is bounded by the bit count. -/
def sieveLoop : Nat → List Nat → Nat → Nat → List Nat
  | 0, bits, _, _ => bits
  | fuel + 1, bits, limit, i =>
    let p := indexToNumber i
    let bits2 := clearMultiples (limit + 2) bits limit (p * 5) (p * 2)
    match nextSetBit bits2 (i + 1) with
    | none => bits2
    | some j => sieveLoop fuel bits2 limit j

/-- `calculatePrimeBitSet` initializes the prime bit set using a simple
prime sieve. -/
def calculatePrimeBitSet (bits : List Nat) : List Nat :=
  let bits1 := setAllBits bits
  let highestbitindex := (bits.length <<< 6) - 1
  let limit := indexToNumber highestbitindex
  sieveLoop (64 * bits.length + 66) bits1 limit 0

/-- The internal implementation of `Set` (primeset.go): the candidate bit
vector plus the two cached scalars. -/
structure PrimeSet where
  bits : List Nat
  largestNumber : Nat
  largestPrime : Nat

/-- The body of `NewPrimeSet` after the `limit < 5` panic guard. -/
def mkPrimeSet (limit : Nat) : PrimeSet :=
  let i := numberToIndex limit
  let words := (i >>> 6) + (if i &&& 63 ≠ 0 then 1 else 0)
  let bits := calculatePrimeBitSet (List.replicate words 0)
  let h := (highestSetBit bits).getD 0
  { bits := bits
    largestNumber := indexToNumber ((bits.length <<< 6) - 1)
    largestPrime := indexToNumber h }

/-- `NewPrimeSet` creates a new set of prime numbers up to a given limit;
it panics (modelled by `none`) when `limit < 5`. -/
def newPrimeSet (limit : Nat) : Option PrimeSet :=
  if limit < 5 then none else some (mkPrimeSet limit)

/-! ### clearMultiples characterization -/

theorem length_clearMultiples :
    ∀ fuel bits limit n d, (clearMultiples fuel bits limit n d).length = bits.length := by
  intro fuel
  induction fuel with
  | zero => intro bits limit n d; rfl
  | succ fuel ih =>
    intro bits limit n d
    rw [clearMultiples]
    split
    · rw [ih]
      split
      · rw [length_clearBit]
      · rfl
    · rfl

theorem words64_clearMultiples :
    ∀ fuel {bits} limit n d, Words64 bits → Words64 (clearMultiples fuel bits limit n d) := by
  intro fuel
  induction fuel with
  | zero => intro bits limit n d W; exact W
  | succ fuel ih =>
    intro bits limit n d W
    rw [clearMultiples]
    split
    · apply ih
      split
      · exact words64_clearBit W _
      · exact W
    · exact W

/-- What the inner loop clears: exactly the bits of the multiples
`n0 + d*t ≤ limit` that are not divisible by 3. -/
theorem clearMultiples_getBit :
    ∀ fuel bits limit n0 d j, 1 ≤ d → limit + 2 ≤ n0 + fuel →
      (getBit (clearMultiples fuel bits limit n0 d) j = false ↔
        (getBit bits j = false ∨
          ∃ t, j = numberToIndex (n0 + d * t) ∧ n0 + d * t ≤ limit ∧ (n0 + d * t) % 3 ≠ 0)) := by
  intro fuel
  induction fuel with
  | zero =>
    intro bits limit n0 d j hd hfuel
    constructor
    · intro h
      exact Or.inl h
    · rintro (h | ⟨t, -, hle, -⟩)
      · exact h
      · omega
  | succ fuel ih =>
    intro bits limit n0 d j hd hfuel
    rw [clearMultiples]
    by_cases hn : n0 ≤ limit
    · rw [if_pos hn]
      rw [ih _ limit (n0 + d) d j hd (by omega)]
      have eshift : ∀ t : Nat, n0 + d * (t + 1) = n0 + d + d * t := by
        intro t
        ring
      by_cases h3 : n0 % 3 ≠ 0
      · rw [if_pos h3]
        constructor
        · rintro (hb | ⟨t, rfl, hle, h3t⟩)
          · rw [getBit_clearBit] at hb
            by_cases hj : j = numberToIndex n0
            · right
              refine ⟨0, by simpa using hj, by simpa using hn, by simpa using h3⟩
            · rw [if_neg hj] at hb
              exact Or.inl hb
          · right
            refine ⟨t + 1, by rw [eshift], by rw [eshift]; exact hle, by rw [eshift]; exact h3t⟩
        · rintro (hb | ⟨t, rfl, hle, h3t⟩)
          · left
            rw [getBit_clearBit]
            split
            · rfl
            · exact hb
          · rcases Nat.eq_zero_or_pos t with rfl | ht
            · left
              rw [getBit_clearBit]
              simp
            · obtain ⟨t2, rfl⟩ : ∃ t2, t = t2 + 1 := ⟨t - 1, by omega⟩
              rw [eshift] at hle h3t
              exact Or.inr ⟨t2, by rw [eshift], hle, h3t⟩
      · rw [if_neg h3]
        push_neg at h3
        constructor
        · rintro (hb | ⟨t, rfl, hle, h3t⟩)
          · exact Or.inl hb
          · exact Or.inr ⟨t + 1, by rw [eshift], by rw [eshift]; exact hle,
              by rw [eshift]; exact h3t⟩
        · rintro (hb | ⟨t, rfl, hle, h3t⟩)
          · exact Or.inl hb
          · rcases Nat.eq_zero_or_pos t with rfl | ht
            · simp at h3t
              omega
            · obtain ⟨t2, rfl⟩ : ∃ t2, t = t2 + 1 := ⟨t - 1, by omega⟩
              rw [eshift] at hle h3t
              exact Or.inr ⟨t2, by rw [eshift], hle, h3t⟩
    · rw [if_neg hn]
      constructor
      · intro h
        exact Or.inl h
      · rintro (h | ⟨t, -, hle, -⟩)
        · exact h
        · have : n0 ≤ n0 + d * t := Nat.le_add_right _ _
          omega

/-! ### Sieve correctness -/

theorem getBit_true_lt {bits : List Nat} {j : Nat} (h : getBit bits j = true) :
    j < 64 * bits.length := by
  by_contra hcon
  rw [getBit_oob _ _ (Nat.le_of_not_lt hcon)] at h
  exact Bool.false_ne_true h

theorem bool_eq_of_false_iff {a b : Bool} (h : a = false ↔ b = false) : a = b := by
  cases a <;> cases b <;> simp_all

theorem indexToNumber_odd (i : Nat) : indexToNumber i % 2 = 1 := by
  rw [indexToNumber_eq]
  split
  · rfl
  · split <;> omega

theorem indexToNumber_not_three_dvd {i : Nat} (hi : 0 < i) : indexToNumber i % 3 ≠ 0 := by
  have := indexToNumber_candidate i hi
  unfold Candidate at this
  omega

theorem shiftLeft_six (a : Nat) : a <<< 6 = 64 * a := by
  rw [Nat.shiftLeft_eq]
  omega

/-- `Mult limit k j`: bit `j` marks a candidate multiple (odd cofactor at
least 5, not divisible by 3, at most `limit`) of the number at bit `k`:
exactly the bits the sieve step for `k` clears. -/
def Mult (limit k j : Nat) : Prop :=
  ∃ q, q % 2 = 1 ∧ 5 ≤ q ∧ indexToNumber j = indexToNumber k * q ∧
    (indexToNumber k * q) % 3 ≠ 0 ∧ indexToNumber k * q ≤ limit

theorem mult_values_candidate {k q : Nat} (hq2 : q % 2 = 1) (hq5 : 5 ≤ q)
    (h3 : (indexToNumber k * q) % 3 ≠ 0) : Candidate (indexToNumber k * q) := by
  have hodd : indexToNumber k % 2 = 1 := indexToNumber_odd k
  have h3k : 3 ≤ indexToNumber k := indexToNumber_ge_three k
  have hoddm : (indexToNumber k * q) % 2 = 1 := by
    rw [Nat.mul_mod, hodd, hq2]
  have h15 : 15 ≤ indexToNumber k * q := by
    calc 15 = 3 * 5 := by norm_num
    _ ≤ indexToNumber k * q := Nat.mul_le_mul h3k hq5
  exact ⟨by omega, by omega⟩

/-- The set of bits cleared by `clearMultiples` at step `k` is exactly
`Mult limit k`. -/
theorem mult_iff_clear (limit k j : Nat) :
    (∃ t, j = numberToIndex (indexToNumber k * 5 + indexToNumber k * 2 * t) ∧
        indexToNumber k * 5 + indexToNumber k * 2 * t ≤ limit ∧
        (indexToNumber k * 5 + indexToNumber k * 2 * t) % 3 ≠ 0)
      ↔ Mult limit k j := by
  have eprod : ∀ t : Nat, indexToNumber k * 5 + indexToNumber k * 2 * t
      = indexToNumber k * (5 + 2 * t) := by
    intro t
    ring
  constructor
  · rintro ⟨t, rfl, hle, h3⟩
    rw [eprod] at hle h3 ⊢
    have hc : Candidate (indexToNumber k * (5 + 2 * t)) :=
      mult_values_candidate (by omega) (by omega) h3
    exact ⟨5 + 2 * t, by omega, by omega, indexToNumber_numberToIndex hc, h3, hle⟩
  · rintro ⟨q, hq2, hq5, hij, h3, hle⟩
    obtain ⟨t, rfl⟩ : ∃ t, q = 5 + 2 * t := ⟨(q - 5) / 2, by omega⟩
    refine ⟨t, ?_, by rw [eprod]; exact hle, by rw [eprod]; exact h3⟩
    rw [eprod, ← hij, numberToIndex_indexToNumber]

/-- The invariant of the sieve's outer loop on entry with scan position
`i`: bit `i` is still set, and the cleared bits are exactly the candidate
multiples of the set bits before `i`. -/
def SieveInv (len limit : Nat) (bits : List Nat) (i : Nat) : Prop :=
  bits.length = len ∧ Words64 bits ∧ getBit bits i = true ∧
    ∀ j, j < 64 * len →
      (getBit bits j = false ↔ ∃ k, k < i ∧ getBit bits k = true ∧ Mult limit k j)

/-- After the sieve finishes: the cleared bits are exactly the candidate
multiples of set bits. -/
def SieveFinal (len limit : Nat) (bits : List Nat) : Prop :=
  ∀ j, j < 64 * len →
    (getBit bits j = false ↔ ∃ k, getBit bits k = true ∧ Mult limit k j)

theorem sieveLoop_final (len limit : Nat) :
    ∀ fuel bits i, SieveInv len limit bits i → 64 * len + 1 ≤ i + fuel →
      (sieveLoop fuel bits limit i).length = len ∧
      Words64 (sieveLoop fuel bits limit i) ∧
      SieveFinal len limit (sieveLoop fuel bits limit i) := by
  intro fuel
  induction fuel with
  | zero =>
    intro bits i hinv hfuel
    obtain ⟨hlen, hW, hA, hB⟩ := hinv
    have := getBit_true_lt hA
    omega
  | succ fuel ih =>
    intro bits i hinv hfuel
    obtain ⟨hlen, hW, hA, hB⟩ := hinv
    have hilt : i < 64 * len := by
      have := getBit_true_lt hA
      omega
    simp only [sieveLoop]
    have hp3 : 3 ≤ indexToNumber i := indexToNumber_ge_three i
    set bits2 := clearMultiples (limit + 2) bits limit
      (indexToNumber i * 5) (indexToNumber i * 2) with hb2def
    have hlen2 : bits2.length = len := by
      rw [hb2def, length_clearMultiples, hlen]
    have hW2 : Words64 bits2 := words64_clearMultiples _ _ _ _ hW
    have hclearm : ∀ j, getBit bits2 j = false ↔ (getBit bits j = false ∨ Mult limit i j) := by
      intro j
      rw [hb2def, clearMultiples_getBit (limit + 2) bits limit
        (indexToNumber i * 5) (indexToNumber i * 2) j (by omega) (by omega),
        mult_iff_clear limit i j]
    have hagree : ∀ k, k ≤ i → getBit bits2 k = getBit bits k := by
      intro k hk
      apply bool_eq_of_false_iff
      rw [hclearm]
      constructor
      · rintro (h | hm)
        · exact h
        · exfalso
          obtain ⟨q, hq2, hq5, hkv, h3, hle⟩ := hm
          have hmono := indexToNumber_mono hk
          have h5q : indexToNumber i * 5 ≤ indexToNumber i * q :=
            Nat.mul_le_mul_left _ (by omega)
          have e5 : indexToNumber i * 5 = 5 * indexToNumber i := by ring
          omega
      · intro h
        exact Or.inl h
    have hA2 : getBit bits2 i = true := by rw [hagree i (Nat.le_refl i)]; exact hA
    have hB2 : ∀ j, j < 64 * len →
        (getBit bits2 j = false ↔ ∃ k, k ≤ i ∧ getBit bits2 k = true ∧ Mult limit k j) := by
      intro j hj
      rw [hclearm, hB j hj]
      constructor
      · rintro (⟨k, hk, hbit, hm⟩ | hm)
        · exact ⟨k, by omega, by rw [hagree k (by omega)]; exact hbit, hm⟩
        · exact ⟨i, Nat.le_refl i, hA2, hm⟩
      · rintro ⟨k, hk, hbit, hm⟩
        rcases Nat.lt_or_ge k i with hki | hki
        · left
          exact ⟨k, hki, by rw [← hagree k (by omega)]; exact hbit, hm⟩
        · right
          have hki2 : k = i := by omega
          subst hki2
          exact hm
    cases hnext : nextSetBit bits2 (i + 1) with
    | none =>
      refine ⟨hlen2, hW2, ?_⟩
      intro j hj
      rw [hB2 j hj]
      constructor
      · rintro ⟨k, hk, hbit, hm⟩
        exact ⟨k, hbit, hm⟩
      · rintro ⟨k, hbit, hm⟩
        rcases Nat.lt_or_ge i k with hik | hik
        · rw [nextSetBit_none hW2 hnext k (by omega)] at hbit
          exact absurd hbit (by simp)
        · exact ⟨k, by omega, hbit, hm⟩
    | some i2 =>
      obtain ⟨hge, hlt2, hbit2, hmin⟩ := nextSetBit_some hW2 hnext
      apply ih
      · refine ⟨hlen2, hW2, hbit2, ?_⟩
        intro j hj
        rw [hB2 j hj]
        constructor
        · rintro ⟨k, hk, hbit, hm⟩
          exact ⟨k, by omega, hbit, hm⟩
        · rintro ⟨k, hk, hbit, hm⟩
          rcases Nat.lt_or_ge i k with hik | hik
          · rw [hmin k (by omega) hk] at hbit
            exact absurd hbit (by simp)
          · exact ⟨k, hik, hbit, hm⟩
      · omega

/-- A sieve-final bit vector marks exactly the primes: a set bit is a
prime candidate and every prime candidate's bit is set. -/
theorem sieveFinal_prime_iff {len limit : Nat} {bits : List Nat}
    (hlimit : limit = indexToNumber (64 * len - 1))
    (F : SieveFinal len limit bits) :
    ∀ j, j < 64 * len → (getBit bits j = true ↔ Nat.Prime (indexToNumber j)) := by
  intro j hj
  constructor
  · intro hbit
    by_cases hj0 : j = 0
    · subst hj0
      have e : indexToNumber 0 = 3 := rfl
      rw [e]
      exact Nat.prime_three
    · by_contra hnp
      have hcand : Candidate (indexToNumber j) :=
        indexToNumber_candidate j (Nat.pos_of_ne_zero hj0)
      obtain ⟨h5, hmod6⟩ := hcand
      set n := indexToNumber j with hndef
      have hne1 : n ≠ 1 := by omega
      have hfp : Nat.Prime n.minFac := Nat.minFac_prime hne1
      have hfd : n.minFac ∣ n := Nat.minFac_dvd n
      have hsq : n.minFac ^ 2 ≤ n := Nat.minFac_sq_le_self (by omega) hnp
      set f := n.minFac with hfdef
      have hf2 : f ≠ 2 := by
        intro h2
        rw [h2] at hfd
        omega
      have hf3 : f ≠ 3 := by
        intro h3
        rw [h3] at hfd
        omega
      have hf4 : f ≠ 4 := by
        intro h4
        rw [h4] at hfp
        norm_num at hfp
      have hf5 : 5 ≤ f := by
        have := hfp.two_le
        omega
      set q := n / f with hqdef
      have hnfq : f * q = n := Nat.mul_div_cancel' hfd
      have hqf : f ≤ q := by
        have h1 : f * f ≤ f * q := by
          calc f * f = f ^ 2 := (pow_two f).symm
          _ ≤ n := hsq
          _ = f * q := hnfq.symm
        exact Nat.le_of_mul_le_mul_left h1 (by omega)
      have hqodd : q % 2 = 1 := by
        rcases Nat.mod_two_eq_zero_or_one q with hq | hq
        · exfalso
          have h2q : (2 : Nat) ∣ q := Nat.dvd_of_mod_eq_zero hq
          have h2n : (2 : Nat) ∣ n := by
            rw [← hnfq]
            exact Dvd.dvd.mul_left h2q f
          omega
        · exact hq
      have hfodd : f % 2 = 1 := by
        rcases Nat.mod_two_eq_zero_or_one f with hf | hf
        · exfalso
          have h2f : (2 : Nat) ∣ f := Nat.dvd_of_mod_eq_zero hf
          have h2n : (2 : Nat) ∣ n := h2f.trans hfd
          omega
        · exact hf
      have hfc : Candidate f := by
        refine ⟨hf5, ?_⟩
        have h3f : ¬(3 : Nat) ∣ f := by
          intro h3d
          have : (3 : Nat) ∣ n := h3d.trans hfd
          omega
        omega
      have hik : indexToNumber (numberToIndex f) = f := indexToNumber_numberToIndex hfc
      have hklt : numberToIndex f < 64 * len := by
        have h1 : numberToIndex f ≤ j := by
          calc numberToIndex f ≤ numberToIndex n :=
                numberToIndex_mono (Nat.le_of_dvd (by omega) hfd)
          _ = j := by rw [hndef, numberToIndex_indexToNumber]
        omega
      have hbitk : getBit bits (numberToIndex f) = true := by
        by_contra hbk
        rw [Bool.not_eq_true] at hbk
        obtain ⟨k2, hbit2, q2, hq22, hq25, hv2, h32, hle2⟩ := (F _ hklt).mp hbk
        rw [hik] at hv2
        have h3k2 := indexToNumber_ge_three k2
        have hdvd2 : indexToNumber k2 ∣ f := Dvd.intro q2 hv2.symm
        rcases hfp.eq_one_or_self_of_dvd _ hdvd2 with h1 | h1
        · omega
        · rw [h1] at hv2
          have hmul : f * 2 ≤ f * q2 := Nat.mul_le_mul_left _ (by omega)
          omega
      have hmk : Mult limit (numberToIndex f) j := by
        refine ⟨q, hqodd, by omega, ?_, ?_, ?_⟩
        · rw [hik, hnfq, hndef]
        · rw [hik, hnfq]
          omega
        · rw [hik, hnfq, hlimit]
          exact indexToNumber_mono (by omega)
      have hflip := (F j hj).mpr ⟨numberToIndex f, hbitk, hmk⟩
      rw [hflip] at hbit
      exact Bool.false_ne_true hbit
  · intro hprime
    by_contra hbf
    rw [Bool.not_eq_true] at hbf
    obtain ⟨k, hbitk, q, hq2, hq5, hv, h3, hle⟩ := (F j hj).mp hbf
    have h3k := indexToNumber_ge_three k
    have hdvd : indexToNumber k ∣ indexToNumber j := Dvd.intro q hv.symm
    rcases hprime.eq_one_or_self_of_dvd _ hdvd with h1 | h1
    · omega
    · rw [h1] at hv
      have hmul : indexToNumber j * 2 ≤ indexToNumber j * q := Nat.mul_le_mul_left _ (by omega)
      have hge3 := indexToNumber_ge_three j
      omega

/-- `calculatePrimeBitSet` computes exactly the primality bits. -/
theorem calculatePrimeBitSet_spec (bits0 : List Nat) (h1 : 1 ≤ bits0.length) :
    (calculatePrimeBitSet bits0).length = bits0.length ∧
    Words64 (calculatePrimeBitSet bits0) ∧
    ∀ j, j < 64 * bits0.length →
      (getBit (calculatePrimeBitSet bits0) j = true ↔ Nat.Prime (indexToNumber j)) := by
  have hstart : SieveInv bits0.length (indexToNumber ((bits0.length <<< 6) - 1))
      (setAllBits bits0) 0 := by
    refine ⟨length_setAllBits _, words64_setAllBits _, ?_, ?_⟩
    · rw [getBit_setAllBits]
      simp only [decide_eq_true_eq]
      omega
    · intro j hj
      rw [getBit_setAllBits]
      constructor
      · intro h
        rw [decide_eq_false_iff_not] at h
        exact absurd hj h
      · rintro ⟨k, hk, -⟩
        exact absurd hk (Nat.not_lt_zero k)
  obtain ⟨hl, hw, hf⟩ := sieveLoop_final bits0.length
    (indexToNumber ((bits0.length <<< 6) - 1))
    (64 * bits0.length + 66) (setAllBits bits0) 0 hstart (by omega)
  have hlim : indexToNumber ((bits0.length <<< 6) - 1)
      = indexToNumber (64 * bits0.length - 1) := by
    rw [shiftLeft_six]
  refine ⟨hl, hw, ?_⟩
  exact sieveFinal_prime_iff hlim hf

/-- The number of words `NewPrimeSet` allocates for a given limit
(`words := i >> 6; if i&63 != 0 { words++ }`). -/
def mkWords (limit : Nat) : Nat :=
  (numberToIndex limit >>> 6) + (if numberToIndex limit &&& 63 ≠ 0 then 1 else 0)

theorem mkPrimeSet_bits (limit : Nat) :
    (mkPrimeSet limit).bits = calculatePrimeBitSet (List.replicate (mkWords limit) 0) := by
  simp only [mkPrimeSet, mkWords]

theorem mkPrimeSet_largestNumber (limit : Nat) :
    (mkPrimeSet limit).largestNumber
      = indexToNumber (((mkPrimeSet limit).bits.length <<< 6) - 1) := by
  simp only [mkPrimeSet]

theorem mkPrimeSet_largestPrime (limit : Nat) :
    (mkPrimeSet limit).largestPrime
      = indexToNumber ((highestSetBit (mkPrimeSet limit).bits).getD 0) := by
  simp only [mkPrimeSet]

theorem mkWords_eq (limit : Nat) :
    mkWords limit
      = numberToIndex limit / 64 + (if numberToIndex limit % 64 ≠ 0 then 1 else 0) := by
  rw [mkWords, shiftRight_six, and_sixtythree]

theorem mkWords_pos (limit : Nat) (h5 : 5 ≤ limit) : 1 ≤ mkWords limit := by
  have h1 : 1 ≤ numberToIndex limit := by
    have : numberToIndex 5 ≤ numberToIndex limit := numberToIndex_mono h5
    simpa [show numberToIndex 5 = 1 by decide] using this
  rw [mkWords_eq]
  by_cases h : numberToIndex limit % 64 ≠ 0
  · rw [if_pos h]
    omega
  · rw [if_neg h]
    push_neg at h
    omega

theorem mkPrimeSet_length (limit : Nat) (h5 : 5 ≤ limit) :
    (mkPrimeSet limit).bits.length = mkWords limit := by
  rw [mkPrimeSet_bits]
  have := (calculatePrimeBitSet_spec (List.replicate (mkWords limit) 0)
    (by simpa using mkWords_pos limit h5)).1
  simpa using this

theorem mkPrimeSet_words64 (limit : Nat) (h5 : 5 ≤ limit) :
    Words64 (mkPrimeSet limit).bits := by
  rw [mkPrimeSet_bits]
  exact (calculatePrimeBitSet_spec (List.replicate (mkWords limit) 0)
    (by simpa using mkWords_pos limit h5)).2.1

/-- The heart of the sieve's invariant: bit `j` is set iff the candidate
it represents is prime. -/
theorem mkPrimeSet_prime_iff (limit : Nat) (h5 : 5 ≤ limit) :
    ∀ j, j < 64 * (mkPrimeSet limit).bits.length →
      (getBit (mkPrimeSet limit).bits j = true ↔ Nat.Prime (indexToNumber j)) := by
  intro j hj
  rw [mkPrimeSet_length limit h5] at hj
  rw [mkPrimeSet_bits]
  exact (calculatePrimeBitSet_spec (List.replicate (mkWords limit) 0)
    (by simpa using mkWords_pos limit h5)).2.2 j (by simpa using hj)

theorem mkPrimeSet_largestNumber_eq (limit : Nat) (h5 : 5 ≤ limit) :
    (mkPrimeSet limit).largestNumber
      = indexToNumber (64 * mkWords limit - 1) := by
  rw [mkPrimeSet_largestNumber, shiftLeft_six, mkPrimeSet_length limit h5]

theorem mkPrimeSet_bit0 (limit : Nat) (h5 : 5 ≤ limit) :
    getBit (mkPrimeSet limit).bits 0 = true := by
  have hw := mkWords_pos limit h5
  have hlen := mkPrimeSet_length limit h5
  rw [mkPrimeSet_prime_iff limit h5 0 (by omega)]
  exact Nat.prime_three

/-- The cached `largestPrime` comes from the highest set bit; with the
sieve invariant it is the largest prime the set represents. -/
theorem mkPrimeSet_highest (limit : Nat) (h5 : 5 ≤ limit) :
    ∃ h, highestSetBit (mkPrimeSet limit).bits = some h ∧
      (mkPrimeSet limit).largestPrime = indexToNumber h ∧
      getBit (mkPrimeSet limit).bits h = true ∧
      ∀ k, h < k → getBit (mkPrimeSet limit).bits k = false := by
  have hW := mkPrimeSet_words64 limit h5
  cases hhs : highestSetBit (mkPrimeSet limit).bits with
  | none =>
    have := highestSetBit_none hW hhs 0
    rw [mkPrimeSet_bit0 limit h5] at this
    exact absurd this (by simp)
  | some h =>
    obtain ⟨h1, h2, h3⟩ := highestSetBit_some hW hhs
    refine ⟨h, rfl, ?_, h2, h3⟩
    rw [mkPrimeSet_largestPrime, hhs]
    rfl

theorem mkPrimeSet_largestPrime_spec (limit : Nat) (h5 : 5 ≤ limit) :
    Nat.Prime (mkPrimeSet limit).largestPrime ∧
      (mkPrimeSet limit).largestPrime ≤ (mkPrimeSet limit).largestNumber ∧
      ∀ q, Nat.Prime q → q ≤ (mkPrimeSet limit).largestNumber →
        q ≤ (mkPrimeSet limit).largestPrime := by
  obtain ⟨h, hhs, hlp, hbit, hhigh⟩ := mkPrimeSet_highest limit h5
  have hlen := mkPrimeSet_length limit h5
  have hw := mkWords_pos limit h5
  have hhlt : h < 64 * (mkPrimeSet limit).bits.length := getBit_true_lt hbit
  refine ⟨?_, ?_, ?_⟩
  · rw [hlp]
    exact (mkPrimeSet_prime_iff limit h5 h hhlt).mp hbit
  · rw [hlp, mkPrimeSet_largestNumber_eq limit h5]
    exact indexToNumber_mono (by omega)
  · intro q hq hqle
    rcases Nat.lt_or_ge q 5 with hq5 | hq5
    · have h3 : 3 ≤ indexToNumber h := indexToNumber_ge_three h
      have : q ≤ 3 := by
        interval_cases q <;> first | rfl | (exfalso; revert hq; decide) | omega
      omega
    · have hqc : Candidate q := by
        rw [candidate_iff_coprime q hq5]
        have h2 : ¬(2 ∣ q) := fun hd =>
          absurd ((Nat.prime_dvd_prime_iff_eq Nat.prime_two hq).mp hd) (by omega)
        have h3 : ¬(3 ∣ q) := fun hd =>
          absurd ((Nat.prime_dvd_prime_iff_eq Nat.prime_three hq).mp hd) (by omega)
        rw [← candidate_iff_coprime q hq5]
        exact ⟨hq5, by omega⟩
      have hjq : numberToIndex q < 64 * (mkPrimeSet limit).bits.length := by
        have e1 : numberToIndex q ≤ numberToIndex (mkPrimeSet limit).largestNumber :=
          numberToIndex_mono hqle
        rw [mkPrimeSet_largestNumber_eq limit h5, numberToIndex_indexToNumber] at e1
        omega
      have hbitq : getBit (mkPrimeSet limit).bits (numberToIndex q) = true := by
        rw [mkPrimeSet_prime_iff limit h5 _ hjq, indexToNumber_numberToIndex hqc]
        exact hq
      have hqh : numberToIndex q ≤ h := by
        by_contra hcon
        rw [hhigh _ (Nat.lt_of_not_le hcon)] at hbitq
        exact absurd hbitq (by simp)
      rw [hlp]
      calc q = indexToNumber (numberToIndex q) := (indexToNumber_numberToIndex hqc).symm
      _ ≤ indexToNumber h := indexToNumber_mono hqh

/-! ### IsPrime (primeset.go) -/

/-- The 64-bit constant of `IsPrime`'s small-number quick check. -/
def quickcheck : Nat := 0x816d129a64b4cb6f

/-- Go's `<<` on uint64: shifts by 64 or more produce 0, smaller shifts
truncate to 64 bits. -/
def shiftl64 (x s : Nat) : Nat := if s < 64 then (x <<< s) % 2 ^ 64 else 0

/-- `IsPrime` (primeset.go).  The `n - 1` underflows to `2^64 - 1` in Go
when `n = 0`, which the `% 2 ^ 64` models; the bit-vector access is
unguarded in Go and panics out of range, hence `getBitChecked`. -/
def isPrime? (s : PrimeSet) (n : Nat) : Option Bool :=
  if n ≤ 63 then
    let quickCheckMask := shiftl64 1 (((n + 2 ^ 64 - 1) % 2 ^ 64) >>> 1)
    some (quickcheck &&& quickCheckMask != 0)
  else if n &&& 1 = 0 ∨ n % 3 = 0 then some false
  else
    let i := numberToIndex n
    if i > 0 then getBitChecked s.bits i
    else some false

/-! ## Claims about the index mapping, the sieve invariant and IsPrime -/

/-- C7: `numberToIndex` and `indexToNumber` are mutual inverses over the
representable candidate numbers (3, and every n ≥ 5 coprime to 6);
`numberToIndex` is monotonically non-decreasing on all integers and
`indexToNumber` is strictly increasing — so the next set bit at or after
`numberToIndex n` corresponds to the smallest represented prime ≥ n. -/
theorem claim_C7 :
    indexToNumber (numberToIndex 3) = 3
    ∧ (∀ n, 5 ≤ n → Nat.Coprime n 6 → indexToNumber (numberToIndex n) = n)
    ∧ (∀ i, numberToIndex (indexToNumber i) = i)
    ∧ (∀ n m, n ≤ m → numberToIndex n ≤ numberToIndex m)
    ∧ (∀ i j, i < j → indexToNumber i < indexToNumber j) := by
  refine ⟨by decide, ?_, numberToIndex_indexToNumber,
    fun n m h => numberToIndex_mono h, fun i j h => indexToNumber_strictMono h⟩
  intro n h5 hc
  exact indexToNumber_numberToIndex ((candidate_iff_coprime n h5).mpr hc)

theorem claim_C7_witness :
    ((5 : Nat) ≤ 25 ∧ Nat.Coprime 25 6 ∧ indexToNumber (numberToIndex 25) = 25)
    ∧ ((7 : Nat) ≤ 11 ∧ numberToIndex 7 ≤ numberToIndex 11)
    ∧ ((3 : Nat) < 4 ∧ indexToNumber 3 < indexToNumber 4) :=
  ⟨⟨by norm_num, by decide, claim_C7.2.1 25 (by norm_num) (by decide)⟩,
    ⟨by norm_num, claim_C7.2.2.2.1 7 11 (by norm_num)⟩,
    ⟨by norm_num, claim_C7.2.2.2.2 3 4 (by norm_num)⟩⟩

/-- C2: after `NewPrimeSet(limit)` succeeds (limit ≥ 5), every bit index
of the allocated vector is set iff the candidate number it maps to is
prime.  In this embedding every subsequent operation (`isPrime?`, the
iterator, `smallestFactorOf`, the factorizer) is a pure function taking
the set immutably, so the vector — and with it this invariant — is
preserved across all operations. -/
theorem claim_C2 :
    ∀ limit, 5 ≤ limit → ∀ s, newPrimeSet limit = some s →
      ∀ j, j < 64 * s.bits.length →
        (getBit s.bits j = true ↔ Nat.Prime (indexToNumber j)) := by
  intro limit h5 s hs j hj
  rw [newPrimeSet, if_neg (by omega)] at hs
  obtain rfl : mkPrimeSet limit = s := Option.some_inj.mp hs
  exact mkPrimeSet_prime_iff limit h5 j hj

theorem claim_C2_witness :
    (getBit (mkPrimeSet 5).bits 2 = true ↔ Nat.Prime (indexToNumber 2)) ∧
      (getBit (mkPrimeSet 5).bits 3 = true ↔ Nat.Prime (indexToNumber 3)) :=
  ⟨claim_C2 5 (by norm_num) (mkPrimeSet 5) rfl 2 (by decide),
    claim_C2 5 (by norm_num) (mkPrimeSet 5) rfl 3 (by decide)⟩

/-- C3 (code bug): `IsPrime(1)` returns `true` on every set.  The 64-bit
quickcheck constant is keyed by `(n-1)/2`, which conflates n = 1 with the
prime 2 (both map to bit 0, and bit 0 is set), although the code's own
documentation says "true iff n is a prime number" and the spec requires
`IsPrime(1) = false`. -/
theorem claim_C3 : ∀ s : PrimeSet, isPrime? s 1 = some true := fun _ => rfl

/-- C5 counterexample: on the set built from limit 5 (one word, largest
number 191) the query `IsPrime(193)` reads word 1 of the 1-word vector —
an out-of-range slice access, i.e. a Go panic (`none`), refuting "IsPrime
never fails ... for every uint64 input". -/
theorem claim_C5_counterexample :
    newPrimeSet 5 = some (mkPrimeSet 5) ∧
      193 > (mkPrimeSet 5).largestNumber ∧
      isPrime? (mkPrimeSet 5) 193 = none :=
  ⟨rfl, by decide, by decide⟩

/-- C5 (amended): `IsPrime` returns a boolean without any out-of-bounds
access for every input up to the set's `LargestNumber()` (the quickcheck
and divisibility branches cover everything else below 64 or divisible by
2 or 3); beyond `LargestNumber()` the access can be out of range. -/
theorem claim_C5 :
    ∀ limit, 5 ≤ limit → ∀ s, newPrimeSet limit = some s →
      ∀ n, n ≤ s.largestNumber → (isPrime? s n).isSome = true := by
  intro limit h5 s hs n hn
  rw [newPrimeSet, if_neg (by omega)] at hs
  obtain rfl : mkPrimeSet limit = s := Option.some_inj.mp hs
  rw [isPrime?]
  by_cases h63 : n ≤ 63
  · rw [if_pos h63]
    rfl
  · rw [if_neg h63]
    by_cases heven : n &&& 1 = 0 ∨ n % 3 = 0
    · rw [if_pos heven]
      rfl
    · rw [if_neg heven]
      by_cases hi : numberToIndex n > 0
      · rw [if_pos hi, getBitChecked]
        have h2 : n &&& 1 = n % 2 := Nat.and_one_is_mod n
        rw [h2] at heven
        push_neg at heven
        have hLN : (mkPrimeSet limit).largestNumber
            = indexToNumber (64 * mkWords limit - 1) :=
          mkPrimeSet_largestNumber_eq limit h5
        have hidx : numberToIndex n ≤ 64 * mkWords limit - 1 := by
          have e1 : numberToIndex n ≤ numberToIndex (mkPrimeSet limit).largestNumber :=
            numberToIndex_mono hn
          rw [hLN, numberToIndex_indexToNumber] at e1
          exact e1
        have hword : (wordMask (numberToIndex n)).1 < (mkPrimeSet limit).bits.length := by
          rw [wordMask_fst, mkPrimeSet_length limit h5]
          have hw := mkWords_pos limit h5
          omega
        simp [List.get?_eq_getElem?, List.getElem?_eq_getElem hword]
      · rw [if_neg hi]
        rfl

theorem claim_C5_witness :
    ((5 : Nat) ≤ 5) ∧ 100 ≤ (mkPrimeSet 5).largestNumber ∧
      (isPrime? (mkPrimeSet 5) 100).isSome = true :=
  ⟨by norm_num, by decide, claim_C5 5 (by norm_num) (mkPrimeSet 5) rfl 100 (by decide)⟩

/-- C6 counterexample: at limit 193 (`numberToIndex 193 = 64`, a multiple
of 64) `NewPrimeSet` allocates a single word, so bit index 64 is not
addressable and `LargestNumber()` is 191 < 193: the prime 193 is missing
from its own set, refuting both halves of the claim. -/
theorem claim_C6_counterexample :
    newPrimeSet 193 = some (mkPrimeSet 193) ∧
      ¬(numberToIndex 193 < 64 * (mkPrimeSet 193).bits.length) ∧
      (mkPrimeSet 193).largestNumber < 193 :=
  ⟨rfl, by decide, by decide⟩

/-- C6 (amended): `NewPrimeSet(L)` allocates
`⌊numberToIndex L / 64⌋ + (1 if numberToIndex L mod 64 ≠ 0)` words.
Whenever `numberToIndex L` is not a multiple of 64, bit index
`numberToIndex L` is addressable, and if moreover L is coprime to 6 then
`LargestNumber() ≥ L`.  When `numberToIndex L` is a positive multiple of
64 (e.g. L = 193, see the counterexample), the word-count increment is
skipped and `LargestNumber()` falls below L. -/
theorem claim_C6 :
    ∀ L, 5 ≤ L → ∀ s, newPrimeSet L = some s →
      s.bits.length = numberToIndex L / 64 + (if numberToIndex L % 64 ≠ 0 then 1 else 0) ∧
      (numberToIndex L % 64 ≠ 0 → numberToIndex L < 64 * s.bits.length) ∧
      (numberToIndex L % 64 ≠ 0 → Nat.Coprime L 6 → L ≤ s.largestNumber) := by
  intro L h5 s hs
  rw [newPrimeSet, if_neg (by omega)] at hs
  obtain rfl : mkPrimeSet L = s := Option.some_inj.mp hs
  have hlen := mkPrimeSet_length L h5
  have hwe := mkWords_eq L
  refine ⟨by rw [hlen, hwe], ?_, ?_⟩
  · intro hne
    rw [hlen, hwe, if_pos hne]
    omega
  · intro hne hc
    rw [mkPrimeSet_largestNumber_eq L h5]
    have hcand : Candidate L := (candidate_iff_coprime L h5).mpr hc
    have h1 : numberToIndex L ≤ 64 * mkWords L - 1 := by
      rw [hwe, if_pos hne]
      omega
    calc L = indexToNumber (numberToIndex L) := (indexToNumber_numberToIndex hcand).symm
    _ ≤ indexToNumber (64 * mkWords L - 1) := indexToNumber_mono h1

theorem claim_C6_witness :
    numberToIndex 7 < 64 * (mkPrimeSet 7).bits.length ∧
      7 ≤ (mkPrimeSet 7).largestNumber :=
  ⟨(claim_C6 7 (by norm_num) (mkPrimeSet 7) rfl).2.1 (by decide),
    (claim_C6 7 (by norm_num) (mkPrimeSet 7) rfl).2.2 (by decide) (by decide)⟩

/-! ### Iterator (iterator.go) -/

/-- State of the internal `iterator` struct: the bit index used by the
next `Next()` call and the prime that call will return (0 after the end
of the sequence). -/
structure IterState where
  nextIndex : Nat
  nextPrime : Nat

/-- The scan loop of `set.Iterator(start)` (iterator.go): find the first
set bit at or after `i` whose candidate number is at least `start`.  The
Go loop is unbounded; it terminates because `i` grows by one each pass
and `nextSetBit` reports no bit once `i` is past the vector, so fuel
`64*len + 2` is always enough. -/
def mkIteratorLoop (s : PrimeSet) (start : Nat) : Nat → Nat → IterState
  | 0, _ => ⟨0, 0⟩
  | fuel + 1, i =>
    match nextSetBit s.bits i with
    | none => ⟨0, 0⟩
    | some n =>
      if indexToNumber n ≥ start then ⟨n, indexToNumber n⟩
      else mkIteratorLoop s start fuel (i + 1)

/-- `set.Iterator(start)` (iterator.go). -/
def mkIterator (s : PrimeSet) (start : Nat) : IterState :=
  if start ≤ 2 then ⟨0, 2⟩
  else mkIteratorLoop s start (64 * s.bits.length + 2) (numberToIndex start)

/-- `iterator.Next()` (iterator.go): the yielded prime (`none` once the
sequence is over) together with the successor state.  When the scan is
exhausted Go stores the `0` returned by `nextSetBit` in `nextIndex` and
sets `nextPrime` to 0. -/
def iterNext (s : PrimeSet) : IterState → Option Nat × IterState
  | ⟨ni, np⟩ =>
    if np = 0 then (none, ⟨ni, np⟩)
    else if np = 2 then (some 2, ⟨0, 3⟩)
    else
      match nextSetBit s.bits (ni + 1) with
      | some j => (some np, ⟨j, indexToNumber j⟩)
      | none => (some np, ⟨0, 0⟩)

/-- The sequence of primes produced by repeatedly calling `Next()`, up
to `fuel` calls. -/
def iterToList (s : PrimeSet) : Nat → IterState → List Nat
  | 0, _ => []
  | fuel + 1, st =>
    match iterNext s st with
    | (none, _) => []
    | (some p, st2) => p :: iterToList s fuel st2

theorem iterToList_end (s : PrimeSet) (fuel k : Nat) :
    iterToList s fuel ⟨k, 0⟩ = [] := by
  cases fuel with
  | zero => rfl
  | succ f => rfl

theorem iterNext_mid (s : PrimeSet) (ni np : Nat) (h0 : np ≠ 0) (h2 : np ≠ 2) :
    iterNext s ⟨ni, np⟩
      = match nextSetBit s.bits (ni + 1) with
        | some j => (some np, ⟨j, indexToNumber j⟩)
        | none => (some np, ⟨0, 0⟩) := by
  simp only [iterNext]
  rw [if_neg h0, if_neg h2]

/-- Splitting a filtered range at its least accepted element. -/
theorem filter_range_cons {P Q : Nat → Bool} {p N : Nat} (hpN : p < N)
    (hPp : P p = true)
    (hPge : ∀ q, q < N → P q = true → p ≤ q)
    (hPQ : ∀ q, q < N → P q = true → p < q → Q q = true)
    (hQP : ∀ q, q < N → Q q = true → P q = true ∧ p < q) :
    (List.range N).filter P = p :: (List.range N).filter Q := by
  have hsplit : List.range N
      = List.range (p + 1) ++ (List.range (N - (p + 1))).map (fun x => (p + 1) + x) := by
    rw [← List.range_add]
    congr 1
    omega
  have hPlow : (List.range (p + 1)).filter P = [p] := by
    rw [List.range_succ, List.filter_append]
    have h1 : (List.range p).filter P = [] := by
      rw [List.filter_eq_nil_iff]
      intro a ha hPa
      rw [List.mem_range] at ha
      exact absurd (hPge a (by omega) hPa) (by omega)
    rw [h1, List.nil_append]
    simp [List.filter_cons, hPp]
  have hQlow : (List.range (p + 1)).filter Q = [] := by
    rw [List.filter_eq_nil_iff]
    intro a ha hQa
    rw [List.mem_range] at ha
    exact absurd (hQP a (by omega) hQa).2 (by omega)
  have htail : ((List.range (N - (p + 1))).map (fun x => (p + 1) + x)).filter P
      = ((List.range (N - (p + 1))).map (fun x => (p + 1) + x)).filter Q := by
    refine List.filter_congr ?_
    intro x hx
    rw [List.mem_map] at hx
    obtain ⟨t, ht, rfl⟩ := hx
    rw [List.mem_range] at ht
    cases hP : P (p + 1 + t) with
    | true => exact (hPQ _ (by omega) hP (by omega)).symm
    | false =>
      cases hQ : Q (p + 1 + t) with
      | true => exact absurd (hQP _ (by omega) hQ).1 (by simp [hP])
      | false => rfl
  rw [hsplit, List.filter_append, List.filter_append, hPlow, hQlow, htail,
    List.nil_append]
  rfl

/-- When a prime q with 5 ≤ q is within the set's range, its bit is set
at index `numberToIndex q`. -/
theorem mkPrimeSet_prime_bit (limit : Nat) (h5 : 5 ≤ limit) {q : Nat}
    (hq : Nat.Prime q) (hq5 : 5 ≤ q)
    (hqle : q ≤ (mkPrimeSet limit).largestNumber) :
    numberToIndex q < 64 * (mkPrimeSet limit).bits.length ∧
      indexToNumber (numberToIndex q) = q ∧
      getBit (mkPrimeSet limit).bits (numberToIndex q) = true := by
  have hqc : Candidate q := by
    have h2 : ¬(2 ∣ q) := fun hd =>
      absurd ((Nat.prime_dvd_prime_iff_eq Nat.prime_two hq).mp hd) (by omega)
    have h3 : ¬(3 ∣ q) := fun hd =>
      absurd ((Nat.prime_dvd_prime_iff_eq Nat.prime_three hq).mp hd) (by omega)
    exact ⟨hq5, by omega⟩
  have hlen := mkPrimeSet_length limit h5
  have hjq : numberToIndex q < 64 * (mkPrimeSet limit).bits.length := by
    have e1 : numberToIndex q ≤ numberToIndex (mkPrimeSet limit).largestNumber :=
      numberToIndex_mono hqle
    rw [mkPrimeSet_largestNumber_eq limit h5, numberToIndex_indexToNumber] at e1
    have hw := mkWords_pos limit h5
    omega
  refine ⟨hjq, indexToNumber_numberToIndex hqc, ?_⟩
  rw [mkPrimeSet_prime_iff limit h5 _ hjq, indexToNumber_numberToIndex hqc]
  exact hq

/-- Running the iterator from a set bit n yields exactly the primes in
`[indexToNumber n, largestPrime]`, in ascending order. -/
theorem iterRun (limit : Nat) (h5 : 5 ≤ limit) :
    ∀ fuel n, getBit (mkPrimeSet limit).bits n = true →
      64 * (mkPrimeSet limit).bits.length - n < fuel →
      iterToList (mkPrimeSet limit) fuel ⟨n, indexToNumber n⟩
        = (List.range ((mkPrimeSet limit).largestPrime + 1)).filter
            (fun q => decide (indexToNumber n ≤ q) && decide (Nat.Prime q)) := by
  intro fuel
  induction fuel with
  | zero =>
    intro n hbit hf
    exact absurd hf (by omega)
  | succ fuel ih =>
    intro n hbit hf
    have hW := mkPrimeSet_words64 limit h5
    have hnlt : n < 64 * (mkPrimeSet limit).bits.length := getBit_true_lt hbit
    have hprime : Nat.Prime (indexToNumber n) :=
      (mkPrimeSet_prime_iff limit h5 n hnlt).mp hbit
    have hp3 : 3 ≤ indexToNumber n := indexToNumber_ge_three n
    obtain ⟨hLPp, hLPle, hLPmax⟩ := mkPrimeSet_largestPrime_spec limit h5
    have hpLP : indexToNumber n ≤ (mkPrimeSet limit).largestPrime := by
      refine hLPmax _ hprime ?_
      rw [mkPrimeSet_largestNumber_eq limit h5]
      have hn1 : n ≤ 64 * mkWords limit - 1 := by
        rw [← mkPrimeSet_length limit h5]
        omega
      exact indexToNumber_mono hn1
    simp only [iterToList]
    rw [iterNext_mid _ _ _ (by omega) (by omega)]
    cases hns : nextSetBit (mkPrimeSet limit).bits (n + 1) with
    | none =>
      have hclear := nextSetBit_none hW hns
      obtain ⟨h, hhs, hlp, hbit2, hhigh⟩ := mkPrimeSet_highest limit h5
      have hhn : h = n := by
        rcases Nat.lt_trichotomy h n with hlt | heq | hgt
        · exact absurd hbit (by rw [hhigh n hlt]; simp)
        · exact heq
        · exact absurd hbit2 (by rw [hclear h (by omega)]; simp)
      show indexToNumber n :: iterToList (mkPrimeSet limit) fuel ⟨0, 0⟩ = _
      rw [iterToList_end]
      have hLPn : (mkPrimeSet limit).largestPrime = indexToNumber n := by
        rw [hlp, hhn]
      rw [hLPn]
      have hcons := filter_range_cons
        (P := fun q => decide (indexToNumber n ≤ q) && decide (Nat.Prime q))
        (Q := fun _ => false) (p := indexToNumber n) (N := indexToNumber n + 1)
        (by omega) (by simp [hprime])
        (fun q _ hPq => by
          simp only [Bool.and_eq_true, decide_eq_true_eq] at hPq
          exact hPq.1)
        (fun q hqN hPq hlt => absurd hlt (by omega))
        (fun q _ hQq => absurd hQq (by simp))
      rw [hcons]
      simp
    | some m =>
      obtain ⟨hm1, hm2, hm3, hm4⟩ := nextSetBit_some hW hns
      have hrec := ih m hm3 (by omega)
      show indexToNumber n
          :: iterToList (mkPrimeSet limit) fuel ⟨m, indexToNumber m⟩ = _
      rw [hrec]
      refine (filter_range_cons (by omega) (by simp [hprime]) ?_ ?_ ?_).symm
      · intro q _ hPq
        simp only [Bool.and_eq_true, decide_eq_true_eq] at hPq
        exact hPq.1
      · intro q hqN hPq hlt
        simp only [Bool.and_eq_true, decide_eq_true_eq] at hPq ⊢
        obtain ⟨-, hqp⟩ := hPq
        refine ⟨?_, hqp⟩
        have hq5 : 5 ≤ q := by
          rcases Nat.lt_or_ge q 5 with hlt5 | hge5
          · have hq4 : q = 4 := by omega
            rw [hq4] at hqp
            exact absurd hqp (by decide)
          · exact hge5
        have hqLN : q ≤ (mkPrimeSet limit).largestNumber := by omega
        obtain ⟨hklt, hke, hkbit⟩ := mkPrimeSet_prime_bit limit h5 hqp hq5 hqLN
        have hkn : n + 1 ≤ numberToIndex q := by
          by_contra hcon
          push_neg at hcon
          have : q ≤ indexToNumber n := by
            calc q = indexToNumber (numberToIndex q) := hke.symm
            _ ≤ indexToNumber n := indexToNumber_mono (by omega)
          omega
        have hkm : m ≤ numberToIndex q := by
          by_contra hcon
          push_neg at hcon
          rw [hm4 _ hkn hcon] at hkbit
          exact absurd hkbit (by simp)
        calc indexToNumber m ≤ indexToNumber (numberToIndex q) :=
              indexToNumber_mono hkm
        _ = q := hke
      · intro q _ hQq
        simp only [Bool.and_eq_true, decide_eq_true_eq] at hQq ⊢
        have hmn : indexToNumber n < indexToNumber m :=
          indexToNumber_strictMono (by omega)
        exact ⟨⟨by omega, hQq.2⟩, by omega⟩

/-- Characterization of the `Iterator(start)` construction loop. -/
theorem mkIteratorLoop_spec (limit : Nat) (h5 : 5 ≤ limit) (start : Nat) :
    ∀ fuel i, 64 * (mkPrimeSet limit).bits.length < fuel + i →
      ((∀ k, i ≤ k → getBit (mkPrimeSet limit).bits k = true →
          indexToNumber k < start) →
        mkIteratorLoop (mkPrimeSet limit) start fuel i = ⟨0, 0⟩)
      ∧ (∀ n, i ≤ n → getBit (mkPrimeSet limit).bits n = true →
          start ≤ indexToNumber n →
          (∀ k, i ≤ k → k < n → getBit (mkPrimeSet limit).bits k = true →
            indexToNumber k < start) →
          mkIteratorLoop (mkPrimeSet limit) start fuel i = ⟨n, indexToNumber n⟩) := by
  have hW := mkPrimeSet_words64 limit h5
  intro fuel
  induction fuel with
  | zero =>
    intro i hfi
    constructor
    · intro _
      rfl
    · intro n hin hbit _ _
      have := getBit_true_lt hbit
      omega
  | succ fuel ih =>
    intro i hfi
    have hub : mkIteratorLoop (mkPrimeSet limit) start (fuel + 1) i
        = match nextSetBit (mkPrimeSet limit).bits i with
          | none => (⟨0, 0⟩ : IterState)
          | some j =>
            if indexToNumber j ≥ start then ⟨j, indexToNumber j⟩
            else mkIteratorLoop (mkPrimeSet limit) start fuel (i + 1) := by
      simp only [mkIteratorLoop]
    cases hns : nextSetBit (mkPrimeSet limit).bits i with
    | none =>
      have hclear := nextSetBit_none hW hns
      constructor
      · intro _
        rw [hub, hns]
      · intro n hin hbit _ _
        rw [hclear n hin] at hbit
        exact absurd hbit (by simp)
    | some m =>
      obtain ⟨him, hmlt, hmbit, hmmin⟩ := nextSetBit_some hW hns
      by_cases hge : indexToNumber m ≥ start
      · constructor
        · intro hall
          exact absurd (hall m him hmbit) (by omega)
        · intro n hin hbit hstart hmin
          have hnm : n = m := by
            rcases Nat.lt_trichotomy n m with h1 | h1 | h1
            · rw [hmmin n hin h1] at hbit
              exact absurd hbit (by simp)
            · exact h1
            · exact absurd (hmin m him h1 hmbit) (by omega)
          subst hnm
          rw [hub, hns]
          show (if indexToNumber n ≥ start then (⟨n, indexToNumber n⟩ : IterState)
            else mkIteratorLoop (mkPrimeSet limit) start fuel (i + 1))
            = ⟨n, indexToNumber n⟩
          rw [if_pos hge]
      · push_neg at hge
        have hrec := ih (i + 1) (by omega)
        constructor
        · intro hall
          rw [hub, hns]
          show (if indexToNumber m ≥ start then (⟨m, indexToNumber m⟩ : IterState)
            else mkIteratorLoop (mkPrimeSet limit) start fuel (i + 1))
            = ⟨0, 0⟩
          rw [if_neg (by omega)]
          exact hrec.1 (fun k hk hb => hall k (by omega) hb)
        · intro n hin hbit hstart hmin
          have hnm : m < n := by
            rcases Nat.lt_trichotomy n m with h1 | h1 | h1
            · rw [hmmin n hin h1] at hbit
              exact absurd hbit (by simp)
            · subst h1
              omega
            · exact h1
          rw [hub, hns]
          show (if indexToNumber m ≥ start then (⟨m, indexToNumber m⟩ : IterState)
            else mkIteratorLoop (mkPrimeSet limit) start fuel (i + 1))
            = ⟨n, indexToNumber n⟩
          rw [if_neg (by omega)]
          exact hrec.2 n (by omega) hbit hstart
            (fun k hk1 hk2 hb => hmin k (by omega) hk2 hb)

/-- C4: for every set built from a limit ≥ 5 and every start value, the
sequence yielded by repeatedly calling `Next()` on `Iterator(start)` is
exactly the list of primes p with start ≤ p ≤ LargestPrime(), in strictly
ascending order, each exactly once (a start ≤ 2 begins the sequence at
2).  In particular the first yielded value, if any, is the smallest prime
≥ start, and `Iterator(LargestPrime()+1)` yields nothing. -/
theorem claim_C4 :
    ∀ limit, 5 ≤ limit → ∀ s, newPrimeSet limit = some s → ∀ start,
      iterToList s (64 * s.bits.length + 2) (mkIterator s start)
        = (List.range (s.largestPrime + 1)).filter
            (fun q => decide (start ≤ q) && decide (Nat.Prime q)) := by
  intro limit h5 s hs start
  rw [newPrimeSet, if_neg (by omega)] at hs
  obtain rfl : mkPrimeSet limit = s := Option.some_inj.mp hs
  have hW := mkPrimeSet_words64 limit h5
  obtain ⟨hLPp, hLPle, hLPmax⟩ := mkPrimeSet_largestPrime_spec limit h5
  have hLP2 : 2 ≤ (mkPrimeSet limit).largestPrime := hLPp.two_le
  by_cases h2 : start ≤ 2
  · rw [mkIterator, if_pos h2]
    have hbit0 := mkPrimeSet_bit0 limit h5
    have hstep : iterToList (mkPrimeSet limit)
        (64 * (mkPrimeSet limit).bits.length + 2) ⟨0, 2⟩
        = 2 :: iterToList (mkPrimeSet limit)
            (64 * (mkPrimeSet limit).bits.length + 1) ⟨0, 3⟩ := rfl
    rw [hstep]
    have h30 : indexToNumber 0 = 3 := rfl
    have hrun := iterRun limit h5
      (64 * (mkPrimeSet limit).bits.length + 1) 0 hbit0 (by omega)
    simp only [h30] at hrun
    rw [hrun]
    refine (filter_range_cons (p := 2) (by omega) ?_ ?_ ?_ ?_).symm
    · simp only [Bool.and_eq_true, decide_eq_true_eq]
      exact ⟨h2, Nat.prime_two⟩
    · intro q _ hPq
      simp only [Bool.and_eq_true, decide_eq_true_eq] at hPq
      exact hPq.2.two_le
    · intro q _ hPq hlt
      simp only [Bool.and_eq_true, decide_eq_true_eq] at hPq ⊢
      exact ⟨by omega, hPq.2⟩
    · intro q _ hQq
      simp only [Bool.and_eq_true, decide_eq_true_eq] at hQq ⊢
      exact ⟨⟨by omega, hQq.2⟩, by omega⟩
  · push_neg at h2
    rw [mkIterator, if_neg (by omega)]
    by_cases hex : ∃ k, numberToIndex start ≤ k ∧
        getBit (mkPrimeSet limit).bits k = true ∧ start ≤ indexToNumber k
    · classical
      set n := Nat.find hex with hndef
      have hspec := Nat.find_spec hex
      rw [← hndef] at hspec
      obtain ⟨hni, hnbit, hnstart⟩ := hspec
      have hmin : ∀ k, numberToIndex start ≤ k → k < n →
          getBit (mkPrimeSet limit).bits k = true → indexToNumber k < start := by
        intro k hk1 hk2 hkb
        by_contra hcon
        push_neg at hcon
        exact (Nat.find_min hex hk2) ⟨hk1, hkb, hcon⟩
      have hloop := (mkIteratorLoop_spec limit h5 start
        (64 * (mkPrimeSet limit).bits.length + 2) (numberToIndex start)
        (by omega)).2 n hni hnbit hnstart hmin
      rw [hloop]
      have hrun := iterRun limit h5
        (64 * (mkPrimeSet limit).bits.length + 2) n hnbit (by omega)
      rw [hrun]
      refine List.filter_congr ?_
      intro q hq
      rw [List.mem_range] at hq
      cases hpq : decide (Nat.Prime q) with
      | false => simp [hpq]
      | true =>
        have hpq2 : Nat.Prime q := of_decide_eq_true hpq
        simp only [hpq, Bool.and_true]
        rw [decide_eq_decide]
        constructor
        · intro hle
          omega
        · intro hle
          have hq3 : 3 ≤ q := by
            have := hpq2.two_le
            omega
          rcases Nat.lt_or_ge q 5 with hlt5 | hge5
          · have hq3e : q = 3 := by
              rcases Nat.lt_trichotomy q 4 with h | h | h
              · omega
              · rw [h] at hpq2
                exact absurd hpq2 (by decide)
              · omega
            have hst3 : start = 3 := by omega
            have hfind0 : n ≤ 0 := by
              rw [hndef]
              refine Nat.find_le ?_
              refine ⟨?_, mkPrimeSet_bit0 limit h5, ?_⟩
              · rw [hst3]
                simp [numberToIndex_three]
              · rw [hst3]
                exact indexToNumber_ge_three 0
            have hn0 : n = 0 := by omega
            rw [hn0, hq3e]
            exact indexToNumber_ge_three 0
          · have hqLN : q ≤ (mkPrimeSet limit).largestNumber := by omega
            obtain ⟨hklt, hke, hkbit⟩ := mkPrimeSet_prime_bit limit h5 hpq2 hge5 hqLN
            have hki : numberToIndex start ≤ numberToIndex q := numberToIndex_mono hle
            have hnk : n ≤ numberToIndex q := by
              rw [hndef]
              exact Nat.find_le ⟨hki, hkbit, by rw [hke]; exact hle⟩
            calc indexToNumber n ≤ indexToNumber (numberToIndex q) :=
                  indexToNumber_mono hnk
            _ = q := hke
    · push_neg at hex
      have hloop := (mkIteratorLoop_spec limit h5 start
        (64 * (mkPrimeSet limit).bits.length + 2) (numberToIndex start)
        (by omega)).1 hex
      rw [hloop, iterToList_end]
      symm
      rw [List.filter_eq_nil_iff]
      intro q hq hPq
      rw [List.mem_range] at hq
      simp only [Bool.and_eq_true, decide_eq_true_eq] at hPq
      obtain ⟨hstq, hqp⟩ := hPq
      rcases Nat.lt_or_ge q 5 with hlt5 | hge5
      · have hq3e : q = 3 := by
          have h2le := hqp.two_le
          rcases Nat.lt_trichotomy q 4 with h | h | h
          · omega
          · rw [h] at hqp
            exact absurd hqp (by decide)
          · omega
        have hst3 : start = 3 := by omega
        have := hex 0 (by rw [hst3]; simp [numberToIndex_three])
          (mkPrimeSet_bit0 limit h5)
        rw [show indexToNumber 0 = 3 from rfl, hst3] at this
        omega
      · have hqLN : q ≤ (mkPrimeSet limit).largestNumber := by omega
        obtain ⟨hklt, hke, hkbit⟩ := mkPrimeSet_prime_bit limit h5 hqp hge5 hqLN
        have := hex (numberToIndex q) (numberToIndex_mono hstq) hkbit
        rw [hke] at this
        omega

/-! ### SmallestFactorOf (primeset.go) -/

/-- Models `uint64(math.Ceil(math.Sqrt(float64(n))))`: the ceiling of the
real square root.  `math.Sqrt` is correctly rounded, so for arguments
below 2^52 — far beyond every concrete case considered here — the Go
expression computes exactly this value. -/
def ceilSqrt (n : Nat) : Nat :=
  if Nat.sqrt n * Nat.sqrt n = n then Nat.sqrt n else Nat.sqrt n + 1

theorem ceilSqrt_sq (m : Nat) : ceilSqrt (m * m) = m := by
  rw [ceilSqrt, Nat.sqrt_eq, if_pos rfl]

/-- The prime-trial loop of `SmallestFactorOf` (primeset.go): walk the
iterator while `p ≤ limit`, returning the first prime dividing `v`;
once the iterator is exhausted or `p > limit`, fall through to the
boundary check.  Fuel exhaustion (`none`) never occurs with the fuel
passed by `smallestFactorOf`. -/
def smallestFactorOfLoop (s : PrimeSet) (v lim : Nat) :
    Nat → IterState → Option (Nat × Bool)
  | 0, _ => none
  | fuel + 1, st =>
    match iterNext s st with
    | (some p, st2) =>
      if p ≤ lim then
        if v % p = 0 then some (p, true)
        else smallestFactorOfLoop s v lim fuel st2
      else if s.largestNumber < lim then some (v, false) else some (v, true)
    | (none, _) =>
      if s.largestNumber < lim then some (v, false) else some (v, true)

/-- `set.SmallestFactorOf(n)` (primeset.go). -/
def smallestFactorOf (s : PrimeSet) (v : Nat) : Option (Nat × Bool) :=
  if v = 0 then some (0, false)
  else smallestFactorOfLoop s v (ceilSqrt v)
    (64 * s.bits.length + 3) (mkIterator s 0)

theorem sfoLoop_zero (s : PrimeSet) (v lim c : Nat) :
    ∀ fuel, 1 ≤ fuel →
      smallestFactorOfLoop s v lim fuel ⟨c, 0⟩
        = if s.largestNumber < lim then some (v, false) else some (v, true) := by
  intro fuel hf
  cases fuel with
  | zero => omega
  | succ f => rfl

/-- Running the trial loop from a set bit: either the least qualifying
prime divisor is hit, or the loop falls through to the boundary check. -/
theorem sfoLoop_run (limit : Nat) (h5 : 5 ≤ limit) (v lim : Nat) :
    ∀ fuel k, getBit (mkPrimeSet limit).bits k = true →
      64 * (mkPrimeSet limit).bits.length - k < fuel →
      (∀ q, Nat.Prime q → q ∣ v → q ≤ lim →
        q ≤ (mkPrimeSet limit).largestPrime → indexToNumber k ≤ q) →
      ((∃ q, Nat.Prime q ∧ q ∣ v ∧ q ≤ lim ∧
          q ≤ (mkPrimeSet limit).largestPrime) →
        smallestFactorOfLoop (mkPrimeSet limit) v lim fuel ⟨k, indexToNumber k⟩
          = some (Nat.minFac v, true))
      ∧ (¬(∃ q, Nat.Prime q ∧ q ∣ v ∧ q ≤ lim ∧
          q ≤ (mkPrimeSet limit).largestPrime) →
        smallestFactorOfLoop (mkPrimeSet limit) v lim fuel ⟨k, indexToNumber k⟩
          = if (mkPrimeSet limit).largestNumber < lim then some (v, false)
            else some (v, true)) := by
  intro fuel
  induction fuel with
  | zero =>
    intro k hbit hf
    exact absurd hf (by omega)
  | succ fuel ih =>
    intro k hbit hf hinv
    have hW := mkPrimeSet_words64 limit h5
    have hnlt : k < 64 * (mkPrimeSet limit).bits.length := getBit_true_lt hbit
    have hprime : Nat.Prime (indexToNumber k) :=
      (mkPrimeSet_prime_iff limit h5 k hnlt).mp hbit
    have hp3 : 3 ≤ indexToNumber k := indexToNumber_ge_three k
    obtain ⟨hLPp, hLPle, hLPmax⟩ := mkPrimeSet_largestPrime_spec limit h5
    have hpLP : indexToNumber k ≤ (mkPrimeSet limit).largestPrime := by
      refine hLPmax _ hprime ?_
      rw [mkPrimeSet_largestNumber_eq limit h5]
      have hk1 : k ≤ 64 * mkWords limit - 1 := by
        rw [← mkPrimeSet_length limit h5]
        omega
      exact indexToNumber_mono hk1
    cases hns : nextSetBit (mkPrimeSet limit).bits (k + 1) with
    | some m =>
      obtain ⟨hm1, hm2, hm3, hm4⟩ := nextSetBit_some hW hns
      have hstep : smallestFactorOfLoop (mkPrimeSet limit) v lim (fuel + 1)
          ⟨k, indexToNumber k⟩
          = if indexToNumber k ≤ lim then
              (if v % indexToNumber k = 0 then some (indexToNumber k, true)
               else smallestFactorOfLoop (mkPrimeSet limit) v lim fuel
                 ⟨m, indexToNumber m⟩)
            else if (mkPrimeSet limit).largestNumber < lim then some (v, false)
              else some (v, true) := by
        simp only [smallestFactorOfLoop]
        rw [iterNext_mid _ _ _ (by omega) (by omega), hns]
      rw [hstep]
      by_cases hlim : indexToNumber k ≤ lim
      · rw [if_pos hlim]
        by_cases hdvd : v % indexToNumber k = 0
        · rw [if_pos hdvd]
          have hdvd2 : indexToNumber k ∣ v := Nat.dvd_of_mod_eq_zero hdvd
          have hv1 : v ≠ 1 := by
            intro hv1
            rw [hv1] at hdvd2
            have := Nat.le_of_dvd (by omega) hdvd2
            omega
          have hmf : Nat.minFac v = indexToNumber k := by
            have hle : Nat.minFac v ≤ indexToNumber k :=
              Nat.minFac_le_of_dvd (by omega) hdvd2
            have hge : indexToNumber k ≤ Nat.minFac v := by
              refine hinv _ (Nat.minFac_prime hv1) (Nat.minFac_dvd v) (by omega) ?_
              exact le_trans hle hpLP
            omega
          constructor
          · intro _
            rw [hmf]
          · intro hno
            exact absurd ⟨indexToNumber k, hprime, hdvd2, hlim, hpLP⟩ hno
        · rw [if_neg hdvd]
          refine ih m hm3 (by omega) ?_
          intro q hq hqd hqlim hqLP
          have hq2 := hq.two_le
          have hq3 : indexToNumber k ≤ q := hinv q hq hqd hqlim hqLP
          have hqne : q ≠ indexToNumber k := by
            intro he
            rw [he] at hqd
            exact hdvd (Nat.mod_eq_zero_of_dvd hqd)
          have hq5 : 5 ≤ q := by
            rcases Nat.lt_or_ge q 5 with hlt5 | hge5
            · have : q = 4 := by omega
              rw [this] at hq
              exact absurd hq (by decide)
            · exact hge5
          have hqLN : q ≤ (mkPrimeSet limit).largestNumber := le_trans hqLP hLPle
          obtain ⟨hklt, hke, hkbit⟩ := mkPrimeSet_prime_bit limit h5 hq hq5 hqLN
          have hkk : k + 1 ≤ numberToIndex q := by
            by_contra hcon
            push_neg at hcon
            have : q ≤ indexToNumber k := by
              calc q = indexToNumber (numberToIndex q) := hke.symm
              _ ≤ indexToNumber k := indexToNumber_mono (by omega)
            omega
          have hkm : m ≤ numberToIndex q := by
            by_contra hcon
            push_neg at hcon
            rw [hm4 _ hkk hcon] at hkbit
            exact absurd hkbit (by simp)
          calc indexToNumber m ≤ indexToNumber (numberToIndex q) :=
                indexToNumber_mono hkm
          _ = q := hke
      · rw [if_neg hlim]
        push_neg at hlim
        constructor
        · intro hex
          obtain ⟨q, hq, hqd, hqlim, hqLP⟩ := hex
          have := hinv q hq hqd hqlim hqLP
          omega
        · intro _
          rfl
    | none =>
      have hclear := nextSetBit_none hW hns
      obtain ⟨h, hhs, hlp, hbit2, hhigh⟩ := mkPrimeSet_highest limit h5
      have hhk : h = k := by
        rcases Nat.lt_trichotomy h k with hlt | heq | hgt
        · exact absurd hbit (by rw [hhigh k hlt]; simp)
        · exact heq
        · exact absurd hbit2 (by rw [hclear h (by omega)]; simp)
      have hLPk : (mkPrimeSet limit).largestPrime = indexToNumber k := by
        rw [hlp, hhk]
      have hstep : smallestFactorOfLoop (mkPrimeSet limit) v lim (fuel + 1)
          ⟨k, indexToNumber k⟩
          = if indexToNumber k ≤ lim then
              (if v % indexToNumber k = 0 then some (indexToNumber k, true)
               else smallestFactorOfLoop (mkPrimeSet limit) v lim fuel ⟨0, 0⟩)
            else if (mkPrimeSet limit).largestNumber < lim then some (v, false)
              else some (v, true) := by
        simp only [smallestFactorOfLoop]
        rw [iterNext_mid _ _ _ (by omega) (by omega), hns]
      rw [hstep]
      by_cases hlim : indexToNumber k ≤ lim
      · rw [if_pos hlim]
        by_cases hdvd : v % indexToNumber k = 0
        · rw [if_pos hdvd]
          have hdvd2 : indexToNumber k ∣ v := Nat.dvd_of_mod_eq_zero hdvd
          have hv1 : v ≠ 1 := by
            intro hv1
            rw [hv1] at hdvd2
            have := Nat.le_of_dvd (by omega) hdvd2
            omega
          have hmf : Nat.minFac v = indexToNumber k := by
            have hle : Nat.minFac v ≤ indexToNumber k :=
              Nat.minFac_le_of_dvd (by omega) hdvd2
            have hge : indexToNumber k ≤ Nat.minFac v := by
              refine hinv _ (Nat.minFac_prime hv1) (Nat.minFac_dvd v) (by omega) ?_
              exact le_trans hle hpLP
            omega
          constructor
          · intro _
            rw [hmf]
          · intro hno
            exact absurd ⟨indexToNumber k, hprime, hdvd2, hlim, hpLP⟩ hno
        · rw [if_neg hdvd]
          have hend := sfoLoop_zero (mkPrimeSet limit) v lim 0 fuel (by omega)
          rw [hend]
          have hnoex : ¬(∃ q, Nat.Prime q ∧ q ∣ v ∧ q ≤ lim ∧
              q ≤ (mkPrimeSet limit).largestPrime) := by
            intro hex
            obtain ⟨q, hq, hqd, hqlim, hqLP⟩ := hex
            have hq3 : indexToNumber k ≤ q := hinv q hq hqd hqlim hqLP
            have hqk : q = indexToNumber k := by
              rw [hLPk] at hqLP
              omega
            rw [hqk] at hqd
            exact hdvd (Nat.mod_eq_zero_of_dvd hqd)
          exact ⟨fun hex => absurd hex hnoex, fun _ => rfl⟩
      · rw [if_neg hlim]
        push_neg at hlim
        constructor
        · intro hex
          obtain ⟨q, hq, hqd, hqlim, hqLP⟩ := hex
          have := hinv q hq hqd hqlim hqLP
          omega
        · intro _
          rfl

/-- Characterization of `SmallestFactorOf` on nonzero inputs. -/
theorem smallestFactorOf_spec (limit : Nat) (h5 : 5 ≤ limit) (v : Nat)
    (hv : v ≠ 0) :
    ((∃ q, Nat.Prime q ∧ q ∣ v ∧ q ≤ ceilSqrt v ∧
        q ≤ (mkPrimeSet limit).largestPrime) →
      smallestFactorOf (mkPrimeSet limit) v = some (Nat.minFac v, true))
    ∧ (¬(∃ q, Nat.Prime q ∧ q ∣ v ∧ q ≤ ceilSqrt v ∧
        q ≤ (mkPrimeSet limit).largestPrime) →
      smallestFactorOf (mkPrimeSet limit) v
        = if (mkPrimeSet limit).largestNumber < ceilSqrt v then some (v, false)
          else some (v, true)) := by
  obtain ⟨hLPp, hLPle, hLPmax⟩ := mkPrimeSet_largestPrime_spec limit h5
  rw [smallestFactorOf, if_neg hv]
  have hstep : smallestFactorOfLoop (mkPrimeSet limit) v (ceilSqrt v)
      (64 * (mkPrimeSet limit).bits.length + 3) (mkIterator (mkPrimeSet limit) 0)
      = if 2 ≤ ceilSqrt v then
          (if v % 2 = 0 then some (2, true)
           else smallestFactorOfLoop (mkPrimeSet limit) v (ceilSqrt v)
             (64 * (mkPrimeSet limit).bits.length + 2) ⟨0, 3⟩)
        else if (mkPrimeSet limit).largestNumber < ceilSqrt v then some (v, false)
          else some (v, true) := rfl
  rw [hstep]
  by_cases hlim : 2 ≤ ceilSqrt v
  · rw [if_pos hlim]
    by_cases hdvd : v % 2 = 0
    · rw [if_pos hdvd]
      have hdvd2 : (2 : Nat) ∣ v := Nat.dvd_of_mod_eq_zero hdvd
      have hmf : Nat.minFac v = 2 := by
        rw [Nat.minFac_eq, if_pos hdvd2]
      constructor
      · intro _
        rw [hmf]
      · intro hno
        exact absurd ⟨2, Nat.prime_two, hdvd2, hlim, hLPp.two_le⟩ hno
    · rw [if_neg hdvd]
      have hbit0 := mkPrimeSet_bit0 limit h5
      have hrun := sfoLoop_run limit h5 v (ceilSqrt v)
        (64 * (mkPrimeSet limit).bits.length + 2) 0 hbit0 (by omega) ?_
      · simp only [show indexToNumber 0 = 3 from rfl] at hrun
        exact hrun
      · intro q hq hqd hqlim hqLP
        have hq2 := hq.two_le
        have hqne : q ≠ 2 := by
          intro he
          rw [he] at hqd
          exact hdvd (Nat.mod_eq_zero_of_dvd hqd)
        have : 3 ≤ q := by omega
        simpa [show indexToNumber 0 = 3 from rfl] using this
  · rw [if_neg hlim]
    push_neg at hlim
    constructor
    · intro hex
      obtain ⟨q, hq, hqd, hqlim, hqLP⟩ := hex
      have := hq.two_le
      omega
    · intro _
      rfl

/-- C10: `SmallestFactorOf(1)` returns `(1, true)` on every constructed
set: 1 is reported as its own smallest prime factor with the found flag
set, although 1 has no prime factor.  The trial loop exits immediately
(2 > ceil(sqrt 1) = 1) and the boundary check passes because
`LargestNumber()` ≥ 1. -/
theorem claim_C10 :
    ∀ limit, 5 ≤ limit → ∀ s, newPrimeSet limit = some s →
      smallestFactorOf s 1 = some (1, true) := by
  intro limit h5 s hs
  rw [newPrimeSet, if_neg (by omega)] at hs
  obtain rfl : mkPrimeSet limit = s := Option.some_inj.mp hs
  have hspec := (smallestFactorOf_spec limit h5 1 (by omega)).2 ?_
  · rw [hspec, if_neg]
    push_neg
    have hLN : (mkPrimeSet limit).largestNumber
        = indexToNumber (64 * mkWords limit - 1) :=
      mkPrimeSet_largestNumber_eq limit h5
    have h3 : 3 ≤ (mkPrimeSet limit).largestNumber := by
      rw [hLN]
      exact indexToNumber_ge_three _
    have : ceilSqrt 1 = 1 := by decide
    omega
  · intro hex
    obtain ⟨q, hq, hqd, _, _⟩ := hex
    have := Nat.le_of_dvd (by omega) hqd
    have := hq.two_le
    omega

theorem claim_C10_witness :
    ((5 : Nat) ≤ 5) ∧ newPrimeSet 5 = some (mkPrimeSet 5) ∧
      smallestFactorOf (mkPrimeSet 5) 1 = some (1, true) :=
  ⟨by norm_num, rfl, claim_C10 5 (by norm_num) (mkPrimeSet 5) rfl⟩

theorem claim_C4_witness :
    ((5 : Nat) ≤ 5) ∧ newPrimeSet 5 = some (mkPrimeSet 5) ∧
      iterToList (mkPrimeSet 5) (64 * (mkPrimeSet 5).bits.length + 2)
          (mkIterator (mkPrimeSet 5) 10)
        = (List.range ((mkPrimeSet 5).largestPrime + 1)).filter
            (fun q => decide (10 ≤ q) && decide (Nat.Prime q)) :=
  ⟨by norm_num, rfl, claim_C4 5 (by norm_num) (mkPrimeSet 5) rfl 10⟩

/-! ### Factorizer (factorizer.go)

The builder mutates three pieces of state: the `factors` table (written,
never read), the recursion `stack` and the stack pointer `sp`.  The
embedding threads `factors` and `stack` explicitly and passes `sp` as an
argument (the Go code restores it after every recursive call).  The
iterator is pure, so the successive `Next()` results are exactly the
list `iterPrimes`.  Divisions are modeled with `div?`: Go panics with
"integer divide by zero" when a divisor is zero, which `.fault` records.
All slice writes of the builder are in bounds in every run (`i ≤ max`
is checked before `factors[numberToIndex i]` is written, and the stack
indices are bounded by `maxDepth`), so `List.set` models them exactly. -/

/-- Division as performed by the Go guards: `none` models the Go runtime
panic on a zero divisor. -/
def div? (a b : Nat) : Option Nat := if b = 0 then none else some (a / b)

/-- The full sequence of primes yielded by `set.Iterator(start)`. -/
def iterPrimes (s : PrimeSet) (start : Nat) : List Nat :=
  iterToList s (64 * s.bits.length + 2) (mkIterator s start)

/-- The `maxDepth` loop of `newFactorizerBuilder` (factorizer.go):
multiply successive primes from 5 while the product stays below `max`
and would not overflow. -/
def maxDepthLoop (max : Nat) : List Nat → Nat → Nat → Nat
  | [], _, d => d
  | p :: rest, test, d =>
    if test < max ∧ test ≤ maxuint / p then
      maxDepthLoop max rest (test * p) (d + 1)
    else d

/-- The `factorizer` struct (factorizer.go): the precalculated table of
largest prime factors and the bound `max` it was built for. -/
structure Factorizer where
  factors : List Nat
  largestNumber : Nat
deriving DecidableEq

/-- Control point inside `build`/`initRecursively` (factorizer.go):
entry of `initRecursively` (`start`), its prime-factor loop (`main`),
the prime-power loop (`power`) and the code after that loop (`after`). -/
inductive BMode where
  | start (base sp : Nat)
  | main (base sp : Nat) (l : List Nat)
  | power (base sp prime next : Nat) (rest : List Nat) (i : Nat)
  | after (base sp next : Nat) (rest : List Nat)

/-- Outcome of a builder run: normal completion, a Go runtime fault
(division by zero), or fuel exhaustion (a model artifact that never
occurs with the fuel supplied by `factorizerOfR`). -/
inductive BRes where
  | ok (factors stack : List Nat)
  | fault
  | out
deriving DecidableEq

/-- `initRecursively` (factorizer.go), written as one fueled transition
function over the four control points.  Each Go statement maps to the
branch structure one-to-one; the unguarded `i *= prime` of the
`continue` path wraps modulo 2^64 exactly as Go's uint64 does, while
the two guarded updates cannot overflow. -/
def buildGo (s : PrimeSet) (max maxD : Nat) :
    Nat → BMode → List Nat → List Nat → BRes
  | 0, _, _, _ => .out
  | fuel + 1, mode, factors, stack =>
    match mode with
    | .start base sp =>
      buildGo s max maxD fuel (.main base sp (iterPrimes s (stack.getD sp 0)))
        factors stack
    | .main base sp l =>
      match l with
      | [] => .ok factors stack
      | prime :: rest =>
        match div? max prime with
        | none => .fault
        | some q =>
          if base ≤ q ∧ prime ≤ stack.getD 0 0 then
            buildGo s max maxD fuel
              (.power base sp prime (rest.headD 0) rest (base * prime))
              factors
              (if sp < maxD then stack.set (sp + 1) (rest.headD 0) else stack)
          else .ok factors stack
    | .power base sp prime next rest i =>
      if i ≤ max then
        match div? maxuint next with
        | none => .fault
        | some q1 =>
          if i > q1 then
            buildGo s max maxD fuel (.after base sp next rest)
              (factors.set (numberToIndex i) (stack.getD 0 0)) stack
          else
            match div? max next with
            | none => .fault
            | some q2 =>
              if i > q2 ∨ sp = maxD ∨ next > stack.getD 0 0 then
                buildGo s max maxD fuel
                  (.power base sp prime next rest ((i * prime) % 2 ^ 64))
                  (factors.set (numberToIndex i) (stack.getD 0 0)) stack
              else
                match buildGo s max maxD fuel (.start i (sp + 1))
                    (factors.set (numberToIndex i) (stack.getD 0 0)) stack with
                | .fault => .fault
                | .out => .out
                | .ok factors2 stack2 =>
                  match div? maxuint prime with
                  | none => .fault
                  | some q3 =>
                    if i > q3 then
                      buildGo s max maxD fuel (.after base sp next rest)
                        factors2 stack2
                    else
                      buildGo s max maxD fuel
                        (.power base sp prime next rest (i * prime))
                        factors2 stack2
      else buildGo s max maxD fuel (.after base sp next rest) factors stack
    | .after base sp next rest =>
      match div? maxuint next with
      | none => .fault
      | some q4 =>
        if base > q4 then .ok factors stack
        else buildGo s max maxD fuel (.main base sp rest) factors stack

/-- The top-level loop of `build` (factorizer.go): for every prime
p ≤ max of the set, record p as its own largest factor and, when
p < max/2, run `initRecursively(p)` with `stack[0] = p, stack[1] = 5`,
`sp = 1`. -/
def buildLoop (s : PrimeSet) (max maxD gfuel : Nat) :
    Nat → List Nat → List Nat → List Nat → BRes
  | 0, _, _, _ => .out
  | _ + 1, [], factors, stack => .ok factors stack
  | fuel + 1, p :: rest, factors, stack =>
    if p ≤ max then
      if p < max / 2 then
        match buildGo s max maxD gfuel (.start p 1)
            (factors.set (numberToIndex p) p) ((stack.set 0 p).set 1 5) with
        | .fault => .fault
        | .out => .out
        | .ok factors2 stack2 =>
          buildLoop s max maxD gfuel fuel rest factors2 stack2
      else
        buildLoop s max maxD gfuel fuel rest
          (factors.set (numberToIndex p) p) stack
    else .ok factors stack

/-- `set.Factorizer(max)` = `newFactorizerBuilder(s, max).build()`
(factorizer.go), with the exact outcome kept: `.ok`, `.fault` (a Go
panic) or `.out` (fuel exhaustion, never hit by these fuel values in
any case proved below). -/
def factorizerOfR (s : PrimeSet) (max : Nat) : BRes :=
  buildLoop s max (maxDepthLoop max (iterPrimes s 5) 1 0)
    ((max + 66) ^ (maxDepthLoop max (iterPrimes s 5) 1 0 + 3))
    ((iterPrimes s 5).length + 1) (iterPrimes s 5)
    (List.replicate (numberToIndex max + 1) 0)
    (List.replicate (maxDepthLoop max (iterPrimes s 5) 1 0 + 1) 0)

/-- The factorizer as the caller sees it. -/
def factorizerOf (s : PrimeSet) (max : Nat) : Option Factorizer :=
  match factorizerOfR s max with
  | .ok factors _ => some ⟨factors, max⟩
  | _ => none

/-- The `for n%3 == 0 { n /= 3 }` loop of `LargestFactorOf`
(factorizer.go); fuel `n` always suffices since `n` shrinks. -/
def strip3 : Nat → Nat → Nat
  | 0, n => n
  | fuel + 1, n => if n % 3 = 0 then strip3 fuel (n / 3) else n

/-- The remainder of `n` after dividing out every factor of 2 and 3:
`LargestFactorOf`'s local `n` right after its two stripping phases
(`n >>= numberOfTrailingZeroes(n)` and the `/= 3` loop). -/
def strip23 (n : Nat) : Nat :=
  strip3 (n >>> numberOfTrailingZeroes n) (n >>> numberOfTrailingZeroes n)

/-- `factorizer.LargestFactorOf(n)` (factorizer.go), with the stripped
locals written through `strip23`.  The table read at the end is in
bounds whenever it is reached (`strip23 n ≤ largestNumber = max` and
the table has `numberToIndex max + 1` entries), so `getD` models the Go
slice access exactly. -/
def largestFactorOf (f : Factorizer) (n : Nat) : Nat × Bool :=
  if n >>> numberOfTrailingZeroes n = 0 then (0, false)
  else if n >>> numberOfTrailingZeroes n = 1 then (2, true)
  else if strip23 n = 1 then (3, true)
  else if strip23 n > f.largestNumber then (0, false)
  else (f.factors.getD (numberToIndex (strip23 n)) 0, true)

theorem strip3_spec : ∀ fuel n, 1 ≤ n → n ≤ fuel →
    ¬(3 ∣ strip3 fuel n) ∧ 1 ≤ strip3 fuel n ∧
      ∃ e, n = 3 ^ e * strip3 fuel n := by
  intro fuel
  induction fuel with
  | zero =>
    intro n h1 h2
    omega
  | succ fuel ih =>
    intro n h1 h2
    by_cases h3 : n % 3 = 0
    · have hd : 3 ∣ n := Nat.dvd_of_mod_eq_zero h3
      have hn3 : 3 ≤ n := Nat.le_of_dvd (by omega) hd
      obtain ⟨hnd, hpos, e, he⟩ := ih (n / 3) (by omega) (by omega)
      simp only [strip3]
      rw [if_pos h3]
      refine ⟨hnd, hpos, e + 1, ?_⟩
      rw [pow_succ]
      calc n = 3 * (n / 3) := by omega
      _ = 3 * (3 ^ e * strip3 fuel (n / 3)) := by rw [← he]
      _ = 3 ^ e * 3 * strip3 fuel (n / 3) := by ring
    · simp only [strip3]
      rw [if_neg h3]
      exact ⟨fun hd => h3 (Nat.mod_eq_zero_of_dvd hd), h1, 0, by ring⟩

/-- `strip23 n` really is the remainder after dividing out all factors
of 2 and 3 (for nonzero 64-bit n): it is odd, not divisible by 3, and
`n = 2^a * 3^b * strip23 n`. -/
theorem strip23_spec (n : Nat) (h0 : n ≠ 0) (hn : n < 2 ^ 64) :
    strip23 n % 2 = 1 ∧ ¬(3 ∣ strip23 n) ∧ 1 ≤ strip23 n ∧
      ∃ a b, n = 2 ^ a * 3 ^ b * strip23 n := by
  obtain ⟨hd63, hmod, hodd⟩ := ntz_spec n h0 hn
  have hshift : n >>> numberOfTrailingZeroes n
      = n / 2 ^ numberOfTrailingZeroes n := Nat.shiftRight_eq_div_pow n _
  have h1 : 1 ≤ n >>> numberOfTrailingZeroes n := by
    rw [hshift]
    rcases Nat.eq_zero_or_pos (n / 2 ^ numberOfTrailingZeroes n) with hz | hz
    · rw [hz] at hodd
      simp at hodd
    · exact hz
  obtain ⟨hnd, hpos, e, he⟩ := strip3_spec (n >>> numberOfTrailingZeroes n)
    (n >>> numberOfTrailingZeroes n) h1 (le_refl _)
  have hsdef : strip23 n = strip3 (n >>> numberOfTrailingZeroes n)
      (n >>> numberOfTrailingZeroes n) := rfl
  have hrdvd : strip23 n ∣ n >>> numberOfTrailingZeroes n := by
    rw [hsdef]
    exact ⟨3 ^ e, he.trans (mul_comm _ _)⟩
  refine ⟨?_, by rw [hsdef]; exact hnd, by rw [hsdef]; exact hpos, ?_⟩
  · by_contra hc
    have h2 : 2 ∣ strip23 n := by omega
    have h2n1 : 2 ∣ n >>> numberOfTrailingZeroes n := h2.trans hrdvd
    rw [hshift] at h2n1
    obtain ⟨k, hk⟩ := h2n1
    rw [hk] at hodd
    omega
  · refine ⟨numberOfTrailingZeroes n, e, ?_⟩
    have hdvd : 2 ^ numberOfTrailingZeroes n ∣ n := Nat.dvd_of_mod_eq_zero hmod
    calc n = 2 ^ numberOfTrailingZeroes n * (n / 2 ^ numberOfTrailingZeroes n) :=
          (Nat.mul_div_cancel' hdvd).symm
    _ = 2 ^ numberOfTrailingZeroes n * (n >>> numberOfTrailingZeroes n) := by
          rw [hshift]
    _ = 2 ^ numberOfTrailingZeroes n * (3 ^ e * strip23 n) := by
          rw [hsdef, ← he]
    _ = 2 ^ numberOfTrailingZeroes n * 3 ^ e * strip23 n := by ring

theorem factorizerOf_largestNumber {s : PrimeSet} {M : Nat} {f : Factorizer}
    (h : factorizerOf s M = some f) : f.largestNumber = M := by
  simp only [factorizerOf] at h
  cases hr : factorizerOfR s M with
  | ok a b =>
    rw [hr] at h
    obtain rfl : ({ factors := a, largestNumber := M } : Factorizer) = f :=
      Option.some_inj.mp h
    rfl
  | fault =>
    rw [hr] at h
    exact absurd h (by simp)
  | out =>
    rw [hr] at h
    exact absurd h (by simp)

set_option maxRecDepth 100000 in
/-- C9 (code bug): the factorizer precomputation does NOT run to
completion for every set and bound: on the set built from limit 5
(largest prime 191) with M = 36481 = 191², `build` reaches p = 191 with
p < M/2 and calls `initRecursively(191)`, whose prime loop iterates up
to prime = 191 (the guard `base ≤ max/prime` holds because
191·191 ≤ M); the lookahead `next, _ := it.Next()` is then exhausted
and yields next = 0, and the power loop's overflow guard evaluates
`maxuint/next` — an integer division by zero, a Go runtime panic.
`.fault` is exactly that division (distinct from `.out`, the
fuel-exhaustion artifact of the model). -/
theorem claim_C9 :
    newPrimeSet 5 = some (mkPrimeSet 5) ∧
      (mkPrimeSet 5).largestPrime = 191 ∧
      (36481 : Nat) = 191 * 191 ∧
      factorizerOfR (mkPrimeSet 5) 36481 = BRes.fault ∧
      factorizerOf (mkPrimeSet 5) 36481 = none := by
  have h : factorizerOfR (mkPrimeSet 5) 36481 = BRes.fault := by decide
  refine ⟨rfl, by decide, by norm_num, h, ?_⟩
  simp only [factorizerOf]
  rw [h]

/-- The found/not-found behaviour of `LargestFactorOf` depends only on
the input and the bound, not on the table contents. -/
theorem lfo_spec (f : Factorizer) (n : Nat) (hn : n < 2 ^ 64) :
    ((largestFactorOf f n).2 = false ↔
      n = 0 ∨ (1 < strip23 n ∧ f.largestNumber < strip23 n)) := by
  by_cases h0 : n = 0
  · subst h0
    constructor
    · intro _
      exact Or.inl rfl
    · intro _
      rfl
  · obtain ⟨hd63, hmod, hodd⟩ := ntz_spec n h0 hn
    have hshift : n >>> numberOfTrailingZeroes n
        = n / 2 ^ numberOfTrailingZeroes n := Nat.shiftRight_eq_div_pow n _
    have h1 : 1 ≤ n >>> numberOfTrailingZeroes n := by
      rw [hshift]
      rcases Nat.eq_zero_or_pos (n / 2 ^ numberOfTrailingZeroes n) with hz | hz
      · rw [hz] at hodd
        simp at hodd
      · exact hz
    rw [largestFactorOf]
    rw [if_neg (by omega : ¬ n >>> numberOfTrailingZeroes n = 0)]
    by_cases hone : n >>> numberOfTrailingZeroes n = 1
    · rw [if_pos hone]
      have hs1 : strip23 n = 1 := by
        rw [strip23, hone]
        decide
      simp [h0, hs1]
    · rw [if_neg hone]
      obtain ⟨hnd, hpos, e, he⟩ := strip3_spec (n >>> numberOfTrailingZeroes n)
        (n >>> numberOfTrailingZeroes n) h1 (le_refl _)
      have hsdef : strip23 n = strip3 (n >>> numberOfTrailingZeroes n)
          (n >>> numberOfTrailingZeroes n) := rfl
      by_cases hs1 : strip23 n = 1
      · rw [if_pos hs1]
        simp [h0, hs1]
      · rw [if_neg hs1]
        have hs2 : 1 < strip23 n := by
          rw [hsdef] at hs1 ⊢
          omega
        by_cases hgt : strip23 n > f.largestNumber
        · rw [if_pos hgt]
          simp only [h0, false_or]
          exact ⟨fun _ => ⟨hs2, hgt⟩, fun _ => trivial⟩
        · rw [if_neg hgt]
          simp only [h0, false_or]
          exact ⟨fun hfalse => absurd hfalse (by simp),
            fun hcon => absurd hcon.2 hgt⟩

set_option maxRecDepth 100000 in
/-- C8 counterexample: with build bound M = 0, `LargestFactorOf(6)`
strips 6 to the remainder 1 and answers (3, true) — found — although
the remainder exceeds M = 0, where the claim demands not-found: the
early returns for fully-stripped inputs never consult the bound. -/
theorem claim_C8_counterexample :
    factorizerOf (mkPrimeSet 5) 0 = some ⟨[0], 0⟩ ∧
      strip23 6 > 0 ∧
      (largestFactorOf ⟨[0], 0⟩ 6).2 = true :=
  ⟨by decide, by decide, by decide⟩

/-- C8 (amended): the factor queries fail exactly when the answer needs
information outside the precomputed range — with one correction: an
input whose remainder after stripping all 2s and 3s is 1 is always
"found" (as a power of 2 times a power of 3), even when that remainder
exceeds the build bound M, which happens exactly for M = 0 (see the
counterexample).  `LargestFactorOf(n)` is not-found ⟺ n = 0, or the
stripped remainder is both > 1 and > M.  `SmallestFactorOf(n)` is
not-found ⟺ n = 0, or no prime ≤ ceil(√n) stored in the set (i.e.
≤ LargestPrime()) divides n while ceil(√n) exceeds LargestNumber();
when a stored prime divisor ≤ ceil(√n) exists the smallest prime factor
of n is returned with found = true, and when ceil(√n) is within range
and no divisor was found, n itself is returned with found = true. -/
theorem claim_C8 :
    ∀ limit, 5 ≤ limit → ∀ s, newPrimeSet limit = some s →
      (∀ M f, factorizerOf s M = some f → ∀ n, n < 2 ^ 64 →
        ((largestFactorOf f n).2 = false ↔
          n = 0 ∨ (1 < strip23 n ∧ M < strip23 n)))
      ∧ (∀ v r, smallestFactorOf s v = some r →
          (r.2 = false ↔ v = 0 ∨
            (¬(∃ q, Nat.Prime q ∧ q ∣ v ∧ q ≤ ceilSqrt v ∧ q ≤ s.largestPrime)
              ∧ s.largestNumber < ceilSqrt v)))
      ∧ (∀ v, v ≠ 0 →
          (∃ q, Nat.Prime q ∧ q ∣ v ∧ q ≤ ceilSqrt v ∧ q ≤ s.largestPrime) →
          smallestFactorOf s v = some (Nat.minFac v, true))
      ∧ (∀ v, v ≠ 0 →
          ¬(∃ q, Nat.Prime q ∧ q ∣ v ∧ q ≤ ceilSqrt v ∧ q ≤ s.largestPrime) →
          ceilSqrt v ≤ s.largestNumber →
          smallestFactorOf s v = some (v, true)) := by
  intro limit h5 s hs
  rw [newPrimeSet, if_neg (by omega)] at hs
  obtain rfl : mkPrimeSet limit = s := Option.some_inj.mp hs
  refine ⟨?_, ?_, ?_, ?_⟩
  · intro M f hf n hn
    rw [← factorizerOf_largestNumber hf]
    exact lfo_spec f n hn
  · intro v r hr
    by_cases hv : v = 0
    · subst hv
      rw [smallestFactorOf, if_pos rfl] at hr
      obtain rfl : ((0 : Nat), false) = r := Option.some_inj.mp hr
      simp
    · by_cases hex : ∃ q, Nat.Prime q ∧ q ∣ v ∧ q ≤ ceilSqrt v ∧
          q ≤ (mkPrimeSet limit).largestPrime
      · have hval := (smallestFactorOf_spec limit h5 v hv).1 hex
        rw [hval] at hr
        obtain rfl : (Nat.minFac v, true) = r := Option.some_inj.mp hr
        constructor
        · intro hfa
          exact absurd hfa (by simp)
        · rintro (h | ⟨hno, _⟩)
          · exact absurd h hv
          · exact absurd hex hno
      · have hval := (smallestFactorOf_spec limit h5 v hv).2 hex
        by_cases hLN : (mkPrimeSet limit).largestNumber < ceilSqrt v
        · rw [if_pos hLN] at hval
          rw [hval] at hr
          obtain rfl : (v, false) = r := Option.some_inj.mp hr
          exact ⟨fun _ => Or.inr ⟨hex, hLN⟩, fun _ => rfl⟩
        · rw [if_neg hLN] at hval
          rw [hval] at hr
          obtain rfl : (v, true) = r := Option.some_inj.mp hr
          constructor
          · intro hfa
            exact absurd hfa (by simp)
          · rintro (h | ⟨_, hLN2⟩)
            · exact absurd h hv
            · exact absurd hLN2 hLN
  · intro v hv hex
    exact (smallestFactorOf_spec limit h5 v hv).1 hex
  · intro v hv hex hLN
    have hval := (smallestFactorOf_spec limit h5 v hv).2 hex
    rw [if_neg (by omega)] at hval
    exact hval

set_option maxRecDepth 100000 in
theorem claim_C8_witness :
    factorizerOf (mkPrimeSet 5) 100
        = some ((factorizerOf (mkPrimeSet 5) 100).getD ⟨[], 0⟩) ∧
      ((largestFactorOf ((factorizerOf (mkPrimeSet 5) 100).getD ⟨[], 0⟩) 35).2
          = false ↔ (35 : Nat) = 0 ∨ (1 < strip23 35 ∧ 100 < strip23 35)) ∧
      smallestFactorOf (mkPrimeSet 5) 4 = some (Nat.minFac 4, true) :=
  ⟨by decide,
    (claim_C8 5 (by norm_num) (mkPrimeSet 5) rfl).1 100 _ (by decide) 35
      (by norm_num),
    (claim_C8 5 (by norm_num) (mkPrimeSet 5) rfl).2.2.1 4 (by norm_num)
      ⟨2, Nat.prime_two, by norm_num,
        by rw [show (4 : Nat) = 2 * 2 from rfl, ceilSqrt_sq],
        by decide⟩⟩

end Primes
